import Mathlib

/-!
Verification development for the `env-audit` environment-variable auditing
tool.  The Rust sources under `src/` are shallowly embedded: pure Rust
functions become Lean functions over `List`/`String`/`Option`, machine
integers become `Nat`, fallible operations return `Except`, and the
unspecified iteration order of Rust `HashSet` is made explicit as a list
parameter constrained by a permutation hypothesis.  File paths are modelled
as plain strings; Rust string comparison (`str::cmp`, byte order on UTF-8)
is modelled by code-point lexicographic comparison, which agrees with byte
order on valid UTF-8.  Regular expressions from the language scanners are
embedded as executable matchers that reproduce the leftmost,
non-overlapping semantics of `Regex::captures_iter` for the concrete
patterns appearing in the source.
-/

namespace EnvAudit

/-- Issue severity levels, from `src/types.rs`.  The Rust `derive(Ord)`
order is declaration order: `Info < Warning < Error`. -/
inductive Severity where
  | Info
  | Warning
  | Error
deriving DecidableEq, Repr

/-- Numeric rank realising the derived `Ord` on `Severity`. -/
def sevRank : Severity → Nat
  | .Info => 0
  | .Warning => 1
  | .Error => 2

/-- Kinds of issues, from `src/types.rs`. -/
inductive IssueKind where
  | MissingEnvVar
  | UnusedEnvVar
  | InconsistentNaming
  | DuplicateDefinition
deriving DecidableEq, Repr

/-- Supported languages, from `src/types.rs` (only the constructors used by
the embedded scanners matter here, but all are kept). -/
inductive Language where
  | JavaScript
  | TypeScript
  | Python
  | Rust
  | Go
  | Ruby
  | Php
  | Java
  | CSharp
deriving DecidableEq, Repr

/-- A location in the codebase, from `src/types.rs` (`Location`).  The
`file` field models Rust `PathBuf` as a plain string. -/
structure Location where
  file : String
  line : Option Nat
  column : Option Nat
deriving DecidableEq, Repr

/-- An environment variable definition, from `src/types.rs`
(`EnvVarDefinition`). -/
structure EnvVarDefinition where
  name : String
  value : Option String
  source_file : String
  line : Nat
deriving DecidableEq, Repr

/-- An environment variable usage, from `src/types.rs` (`EnvVarUsage`). -/
structure EnvVarUsage where
  name : String
  file_path : String
  line : Nat
  column : Nat
  language : Language
  context : Option String
deriving DecidableEq, Repr

/-- An issue found during the audit, from `src/types.rs` (`Issue`). -/
structure Issue where
  kind : IssueKind
  severity : Severity
  var_name : String
  message : String
  locations : List Location
  suggestion : Option String
deriving DecidableEq, Repr

/-- A naming convention rule, from `src/rules/mod.rs` (`NamingRule`). -/
structure NamingRule where
  name : String
  description : Option String
  alternatives : List String
  preferred : String
  severity : Severity
deriving Repr

/-- Summary statistics for a scan, from `src/types.rs` (`ScanSummary`). -/
structure ScanSummary where
  files_scanned : Nat
  env_files_found : Nat
  vars_defined : Nat
  vars_used : Nat
  total_issues : Nat
  errors : Nat
  warnings : Nat
  infos : Nat
deriving DecidableEq, Repr

/-- The complete scan report, from `src/types.rs` (`ScanReport`). -/
structure ScanReport where
  summary : ScanSummary
  issues : List Issue
  definitions : List EnvVarDefinition
  usages : List EnvVarUsage
  scan_duration_ms : Nat
deriving Repr

/-- Three-way comparison on `Nat`, modelling Rust `usize::cmp`. -/
def natCmp (a b : Nat) : Ordering :=
  if a < b then .lt else if b < a then .gt else .eq

/-- Three-way comparison on characters by code point, modelling Rust
`char`/byte comparison (UTF-8 byte order agrees with code-point order). -/
def charCmp (a b : Char) : Ordering :=
  natCmp a.toNat b.toNat

/-- Lexicographic three-way comparison on lists, given an element
comparison. -/
def listCmp (c : α → α → Ordering) : List α → List α → Ordering
  | [], [] => .eq
  | [], _ :: _ => .lt
  | _ :: _, [] => .gt
  | a :: as', b :: bs' =>
    match c a b with
    | .eq => listCmp c as' bs'
    | o => o

/-- Three-way comparison on strings, modelling Rust `str::cmp` (lexicographic
byte order, which equals code-point order on valid UTF-8). -/
def strCmp (a b : String) : Ordering :=
  listCmp charCmp a.data b.data

/-- Three-way comparison on `Option Nat`, modelling Rust `Option<usize>::cmp`
(`None` sorts before `Some`). -/
def optNatCmp : Option Nat → Option Nat → Ordering
  | none, none => .eq
  | none, some _ => .lt
  | some _, none => .gt
  | some a, some b => natCmp a b

/-- The properties of a three-way comparison that the stable-sort theory
needs: swap symmetry, transitivity of strict order, and left congruence of
comparison along `eq`. -/
structure LawfulCmp (c : α → α → Ordering) : Prop where
  swap_eq : ∀ a b, c b a = (c a b).swap
  lt_trans : ∀ {a b d}, c a b = .lt → c b d = .lt → c a d = .lt
  congr_left : ∀ {a b} d, c a b = .eq → c a d = c b d

theorem natCmp_swap (a b : Nat) : natCmp b a = (natCmp a b).swap := by
  unfold natCmp
  rcases Nat.lt_trichotomy a b with h | h | h
  · simp [h, Nat.lt_asymm h, Ordering.swap]
  · subst h; simp [Nat.lt_irrefl, Ordering.swap]
  · simp [h, Nat.lt_asymm h, Ordering.swap]

theorem natCmp_eq_iff {a b : Nat} : natCmp a b = .eq ↔ a = b := by
  unfold natCmp
  split <;> rename_i h
  · simp; omega
  · split <;> rename_i h2
    · simp; omega
    · simp; omega

theorem natCmp_lt_iff {a b : Nat} : natCmp a b = .lt ↔ a < b := by
  unfold natCmp
  split <;> rename_i h
  · simp [h]
  · split <;> simp <;> omega

theorem lawful_natCmp : LawfulCmp natCmp := by
  refine ⟨natCmp_swap, ?_, ?_⟩
  · intro a b d h1 h2
    rw [natCmp_lt_iff] at *
    omega
  · intro a b d h
    rw [natCmp_eq_iff] at h
    rw [h]

theorem charCmp_eq_iff {a b : Char} : charCmp a b = .eq ↔ a = b := by
  unfold charCmp
  rw [natCmp_eq_iff]
  constructor
  · intro h
    exact Char.eq_of_val_eq (by
      apply UInt32.toBitVec_injective.eq_iff.mp
      apply BitVec.toNat_injective.eq_iff.mp
      exact h)
  · intro h; rw [h]

theorem lawful_charCmp : LawfulCmp charCmp := by
  refine ⟨fun a b => natCmp_swap _ _, ?_, ?_⟩
  · intro a b d h1 h2
    exact lawful_natCmp.lt_trans h1 h2
  · intro a b d h
    rw [charCmp_eq_iff] at h
    rw [h]

theorem listCmp_eq_iff {c : α → α → Ordering}
    (hc : ∀ {x y : α}, c x y = .eq ↔ x = y) :
    ∀ {l1 l2 : List α}, listCmp c l1 l2 = .eq ↔ l1 = l2 := by
  intro l1
  induction l1 with
  | nil => intro l2; cases l2 <;> simp [listCmp]
  | cons a as ih =>
    intro l2
    cases l2 with
    | nil => simp [listCmp]
    | cons b bs =>
      simp only [listCmp]
      cases ho : c a b with
      | lt =>
        simp only [List.cons.injEq]
        constructor
        · intro h2; simp at h2
        · rintro ⟨hab, _⟩
          rw [hc.mpr hab] at ho
          simp at ho
      | eq =>
        have hab := hc.mp ho
        subst hab
        simp [ih]
      | gt =>
        simp only [List.cons.injEq]
        constructor
        · intro h2; simp at h2
        · rintro ⟨hab, _⟩
          rw [hc.mpr hab] at ho
          simp at ho

theorem listCmp_swap {c : α → α → Ordering}
    (hs : ∀ a b, c b a = (c a b).swap) :
    ∀ (l1 l2 : List α), listCmp c l2 l1 = (listCmp c l1 l2).swap := by
  intro l1
  induction l1 with
  | nil => intro l2; cases l2 <;> simp [listCmp, Ordering.swap]
  | cons a as ih =>
    intro l2
    cases l2 with
    | nil => simp [listCmp, Ordering.swap]
    | cons b bs =>
      simp only [listCmp, hs a b]
      cases c a b <;> simp [Ordering.swap, ih]

theorem listCmp_lt_trans {c : α → α → Ordering} (hc : LawfulCmp c)
    (hce : ∀ {x y : α}, c x y = .eq ↔ x = y) :
    ∀ {l1 l2 l3 : List α}, listCmp c l1 l2 = .lt → listCmp c l2 l3 = .lt →
      listCmp c l1 l3 = .lt := by
  intro l1
  induction l1 with
  | nil =>
    intro l2 l3 h1 h2
    cases l2 <;> cases l3 <;> simp_all [listCmp]
  | cons a as ih =>
    intro l2 l3 h1 h2
    cases l2 with
    | nil => simp [listCmp] at h1
    | cons b bs =>
      cases l3 with
      | nil => simp [listCmp] at h2
      | cons d ds =>
        simp only [listCmp] at h1 h2 ⊢
        cases hab : c a b with
        | lt =>
          rw [hab] at h1
          cases hbd : c b d with
          | lt => rw [hc.lt_trans hab hbd]
          | eq =>
            have := hce.mp hbd
            subst this
            rw [hab]
          | gt => rw [hbd] at h2; simp at h2
        | eq =>
          rw [hab] at h1
          have := hce.mp hab
          subst this
          cases hbd : c a d with
          | lt => rfl
          | eq =>
            rw [hbd] at h2
            rw [ih h1 h2]
          | gt => rw [hbd] at h2; simp at h2
        | gt => rw [hab] at h1; simp at h1

theorem lawful_listCmp {c : α → α → Ordering} (hc : LawfulCmp c)
    (hce : ∀ {x y : α}, c x y = .eq ↔ x = y) : LawfulCmp (listCmp c) := by
  refine ⟨listCmp_swap hc.swap_eq, ?_, ?_⟩
  · intro a b d h1 h2
    exact listCmp_lt_trans hc hce h1 h2
  · intro a b d h
    rw [(listCmp_eq_iff hce).mp h]

theorem strCmp_eq_iff {a b : String} : strCmp a b = .eq ↔ a = b := by
  unfold strCmp
  rw [listCmp_eq_iff (fun {x y} => charCmp_eq_iff)]
  constructor
  · intro h
    cases a; cases b; simp_all
  · intro h; rw [h]

theorem lawful_strCmp : LawfulCmp strCmp := by
  have h := lawful_listCmp lawful_charCmp (fun {x y} => charCmp_eq_iff)
  refine ⟨fun a b => h.swap_eq a.data b.data, ?_, ?_⟩
  · intro a b d h1 h2
    exact h.lt_trans h1 h2
  · intro a b d hab
    rw [strCmp_eq_iff.mp hab]

theorem optNatCmp_eq_iff {a b : Option Nat} : optNatCmp a b = .eq ↔ a = b := by
  cases a <;> cases b <;> simp [optNatCmp, natCmp_eq_iff]

theorem lawful_optNatCmp : LawfulCmp optNatCmp := by
  refine ⟨?_, ?_, ?_⟩
  · intro a b
    cases a <;> cases b <;> simp only [optNatCmp, Ordering.swap]
    exact natCmp_swap _ _
  · intro a b d h1 h2
    cases a <;> cases b <;> cases d <;> simp_all [optNatCmp]
    exact lawful_natCmp.lt_trans h1 h2
  · intro a b d h
    rw [optNatCmp_eq_iff.mp h]

theorem ordering_then_swap (o1 o2 : Ordering) :
    (o1.then o2).swap = o1.swap.then o2.swap := by
  cases o1 <;> rfl

theorem ordering_then_eq_lt {o1 o2 : Ordering} :
    o1.then o2 = .lt ↔ o1 = .lt ∨ (o1 = .eq ∧ o2 = .lt) := by
  cases o1 <;> simp [Ordering.then]

theorem ordering_then_eq_eq {o1 o2 : Ordering} :
    o1.then o2 = .eq ↔ o1 = .eq ∧ o2 = .eq := by
  cases o1 <;> simp [Ordering.then]

theorem LawfulCmp.congr_right {c : α → α → Ordering} (hc : LawfulCmp c)
    {a b : α} (d : α) (h : c a b = .eq) : c d a = c d b := by
  rw [hc.swap_eq a d, hc.swap_eq b d, hc.congr_left d h]

theorem LawfulCmp.eq_symm {c : α → α → Ordering} (hc : LawfulCmp c)
    {a b : α} (h : c a b = .eq) : c b a = .eq := by
  rw [hc.swap_eq, h]; rfl

theorem LawfulCmp.le_trans {c : α → α → Ordering} (hc : LawfulCmp c)
    {a b d : α} (h1 : c a b ≠ .gt) (h2 : c b d ≠ .gt) : c a d ≠ .gt := by
  cases hab : c a b with
  | lt =>
    cases hbd : c b d with
    | lt => rw [hc.lt_trans hab hbd]; simp
    | eq => rw [hc.congr_right a hbd] at hab; rw [hab]; simp
    | gt => exact absurd hbd h2
  | eq =>
    rw [hc.congr_left d hab]
    exact h2
  | gt => exact absurd hab h1

theorem LawfulCmp.lt_of_not_le {c : α → α → Ordering} (hc : LawfulCmp c)
    {a b : α} (h : c a b = .gt) : c b a = .lt := by
  rw [hc.swap_eq, h]; rfl

/-- A lawful comparison composed lexicographically with another lawful
comparison (modelling Rust `Ordering::then_with`) is again lawful. -/
theorem lawful_then {f g : α → α → Ordering}
    (hf : LawfulCmp f) (hg : LawfulCmp g) :
    LawfulCmp (fun a b => (f a b).then (g a b)) := by
  refine ⟨?_, ?_, ?_⟩
  · intro a b
    simp only [hf.swap_eq a b, hg.swap_eq a b, ordering_then_swap]
  · intro a b d h1 h2
    simp only [ordering_then_eq_lt] at h1 h2 ⊢
    rcases h1 with h1 | ⟨h1, h1g⟩
    · rcases h2 with h2 | ⟨h2, _⟩
      · exact Or.inl (hf.lt_trans h1 h2)
      · exact Or.inl (by rw [hf.congr_right a h2] at h1; exact h1)
    · rcases h2 with h2 | ⟨h2, h2g⟩
      · exact Or.inl (by rw [hf.congr_left d h1]; exact h2)
      · exact Or.inr ⟨by rw [hf.congr_left d h1]; exact h2,
          hg.lt_trans h1g h2g⟩
  · intro a b d h
    simp only [ordering_then_eq_eq] at h
    simp only [hf.congr_left d h.1, hg.congr_left d h.2]

/-- Pulling a lawful comparison back along a key function keeps it lawful. -/
theorem lawful_key {c : β → β → Ordering} (hc : LawfulCmp c) (k : α → β) :
    LawfulCmp (fun a b => c (k a) (k b)) := by
  refine ⟨fun a b => hc.swap_eq _ _, ?_, ?_⟩
  · intro a b d h1 h2
    exact hc.lt_trans h1 h2
  · intro a b d h
    exact hc.congr_left _ h

/-- Reversing the arguments of a lawful comparison keeps it lawful. -/
theorem lawful_flip {c : α → α → Ordering} (hc : LawfulCmp c) :
    LawfulCmp (fun a b => c b a) := by
  refine ⟨?_, ?_, ?_⟩
  · intro a b
    rw [hc.swap_eq b a]
  · intro a b d h1 h2
    exact hc.lt_trans h2 h1
  · intro a b d h
    exact hc.congr_right d (hc.eq_symm h)

section StableSort

variable (cmp : α → α → Ordering)

/-- Insert into a sorted list in front of the first element the new one is
not greater than; this realises the stable placement used by Rust
`sort_by`. -/
def orderedInsert (a : α) : List α → List α
  | [] => [a]
  | b :: l => if cmp a b = .gt then b :: orderedInsert a l else a :: b :: l

/-- Stable insertion sort.  Rust `slice::sort_by` is a stable sort by a
total comparator; every stable sort by the same comparator computes the
same list, so this is a faithful model of the `issues.sort_by` and
`locations.sort_by` calls in the source. -/
def insertionSort : List α → List α
  | [] => []
  | a :: l => orderedInsert cmp a (insertionSort l)

theorem orderedInsert_perm (a : α) (l : List α) :
    List.Perm (orderedInsert cmp a l) (a :: l) := by
  induction l with
  | nil => rfl
  | cons b t ih =>
    unfold orderedInsert
    split
    · exact ((ih).cons b).trans (List.Perm.swap a b t)
    · rfl

theorem insertionSort_perm (l : List α) :
    List.Perm (insertionSort cmp l) l := by
  induction l with
  | nil => rfl
  | cons a t ih =>
    exact (orderedInsert_perm cmp a (insertionSort cmp t)).trans (ih.cons a)

theorem mem_orderedInsert {a x : α} {l : List α}
    (h : x ∈ orderedInsert cmp a l) : x = a ∨ x ∈ l :=
  by simpa using (orderedInsert_perm cmp a l).mem_iff.mp h

variable {cmp}

theorem orderedInsert_pairwise (hc : LawfulCmp cmp) (a : α) {l : List α}
    (h : List.Pairwise (fun x y => cmp x y ≠ .gt) l) :
    List.Pairwise (fun x y => cmp x y ≠ .gt) (orderedInsert cmp a l) := by
  induction l with
  | nil => simp [orderedInsert]
  | cons b t ih =>
    unfold orderedInsert
    obtain ⟨hb, ht⟩ := List.pairwise_cons.mp h
    split <;> rename_i hab
    · refine List.Pairwise.cons ?_ (ih ht)
      intro x hx
      rcases mem_orderedInsert cmp hx with rfl | hx
      · rw [hc.lt_of_not_le hab]; simp
      · exact hb x hx
    · refine List.Pairwise.cons ?_ (List.Pairwise.cons hb ht)
      intro x hx
      rcases List.mem_cons.mp hx with rfl | hx
      · exact hab
      · exact hc.le_trans hab (hb x hx)

theorem insertionSort_pairwise (hc : LawfulCmp cmp) (l : List α) :
    List.Pairwise (fun x y => cmp x y ≠ .gt) (insertionSort cmp l) := by
  induction l with
  | nil => simp [insertionSort]
  | cons a t ih => exact orderedInsert_pairwise hc a ih

theorem orderedInsert_comm_lt (hc : LawfulCmp cmp) {a b : α}
    (hab : cmp a b = .lt) (l : List α) :
    orderedInsert cmp a (orderedInsert cmp b l)
      = orderedInsert cmp b (orderedInsert cmp a l) := by
  have hba : cmp b a = .gt := by rw [hc.swap_eq, hab]; rfl
  have haponb : ∀ {d : α}, cmp b d ≠ .gt → cmp a d ≠ .gt := by
    intro d hbd
    cases hbd2 : cmp b d with
    | lt => rw [hc.lt_trans hab hbd2]; simp
    | eq => rw [hc.congr_right a hbd2] at hab; rw [hab]; simp
    | gt => exact absurd hbd2 hbd
  have habne : ¬ (cmp a b = .gt) := by rw [hab]; simp
  induction l with
  | nil => simp [orderedInsert, hab, hba]
  | cons d t ih =>
    by_cases hbd : cmp b d = .gt
    · by_cases had : cmp a d = .gt
      · simp only [orderedInsert, if_pos hbd, if_pos had]
        rw [ih]
      · simp [orderedInsert, if_pos hbd, if_neg had, if_pos hba, habne]
    · have had : cmp a d ≠ .gt := haponb hbd
      simp [orderedInsert, if_neg hbd, if_neg had, if_pos hba, habne]

theorem orderedInsert_comm (hc : LawfulCmp cmp) {a b : α}
    (hab : cmp a b ≠ .eq) (l : List α) :
    orderedInsert cmp a (orderedInsert cmp b l)
      = orderedInsert cmp b (orderedInsert cmp a l) := by
  cases h : cmp a b with
  | lt => exact orderedInsert_comm_lt hc h l
  | eq => exact absurd h hab
  | gt => exact (orderedInsert_comm_lt hc (hc.lt_of_not_le h) l).symm

theorem foldr_orderedInsert_of_perm (hc : LawfulCmp cmp)
    {a1 a2 : List α} (h : List.Perm a1 a2) :
    List.Pairwise (fun x y => cmp x y ≠ .eq) a1 →
      ∀ s, a1.foldr (orderedInsert cmp) s = a2.foldr (orderedInsert cmp) s := by
  induction h with
  | nil => intro _ _; rfl
  | cons x hperm ih =>
    intro hp s
    simp only [List.foldr_cons]
    rw [ih (List.pairwise_cons.mp hp).2 s]
  | swap x y l =>
    intro hp s
    have hy := (List.pairwise_cons.mp hp).1 x (by simp)
    simp only [List.foldr_cons]
    exact orderedInsert_comm hc hy _
  | trans h12 h23 ih1 ih2 =>
    intro hp s
    rw [ih1 hp s,
      ih2 ((List.Perm.pairwise_iff (fun hxy he => hxy (hc.eq_symm he)) h12).mp hp) s]

theorem insertionSort_append_foldr (cmp : α → α → Ordering)
    (l1 l2 : List α) :
    insertionSort cmp (l1 ++ l2)
      = l1.foldr (orderedInsert cmp) (insertionSort cmp l2) := by
  induction l1 with
  | nil => rfl
  | cons a t ih =>
    rw [List.cons_append]
    simp only [insertionSort, List.foldr_cons]
    exact congrArg (orderedInsert cmp a) ih

theorem insertionSort_append_congr (hc : LawfulCmp cmp)
    {a1 a2 : List α} (h : List.Perm a1 a2)
    (hp : List.Pairwise (fun x y => cmp x y ≠ .eq) a1) (post : List α) :
    insertionSort cmp (a1 ++ post) = insertionSort cmp (a2 ++ post) := by
  rw [insertionSort_append_foldr, insertionSort_append_foldr,
    foldr_orderedInsert_of_perm hc h hp]

end StableSort

/-- Naming-related configuration, from `src/config.rs` (`NamingConfig`).
Regular-expression ignore patterns are modelled by the membership
predicates of the successfully compiled regexes (`Regex::is_match`); a
pattern that fails to compile is dropped by `find_naming_issues` and hence
simply absent from this list. -/
structure NamingConfig where
  builtin_rules : Bool
  custom_rules : List NamingRule
  ignore_patterns : List (String → Bool)

/-- The configuration slice consumed by the analysis layer, from
`src/config.rs` (`Config`); scanning and output configuration are not
needed by any claim. -/
structure Config where
  naming : NamingConfig

/-- Unicode white-space test, modelling Rust `char::is_whitespace`
(the Unicode `White_Space` property). -/
def isWsChar (c : Char) : Bool :=
  c.toNat ∈ [0x09, 0x0A, 0x0B, 0x0C, 0x0D, 0x20, 0x85, 0xA0, 0x1680,
    0x2000, 0x2001, 0x2002, 0x2003, 0x2004, 0x2005, 0x2006, 0x2007,
    0x2008, 0x2009, 0x200A, 0x2028, 0x2029, 0x202F, 0x205F, 0x3000]

/-- Trim leading and trailing white space, modelling Rust `str::trim`. -/
def trimChars (cs : List Char) : List Char :=
  ((cs.dropWhile isWsChar).reverse.dropWhile isWsChar).reverse

/-- ASCII alphabetic test, modelling Rust `char::is_ascii_alphabetic`. -/
def isAsciiAlpha (c : Char) : Bool :=
  (65 ≤ c.toNat && c.toNat ≤ 90) || (97 ≤ c.toNat && c.toNat ≤ 122)

/-- ASCII digit test. -/
def isAsciiDigit (c : Char) : Bool :=
  48 ≤ c.toNat && c.toNat ≤ 57

/-- ASCII alphanumeric test, modelling Rust
`char::is_ascii_alphanumeric`. -/
def isAsciiAlphanum (c : Char) : Bool :=
  isAsciiAlpha c || isAsciiDigit c

/-- Validity of an environment variable name, from
`src/scanner/env_parser.rs` (`is_valid_env_var_name`): first character an
ASCII letter or underscore, the rest ASCII alphanumeric or underscore,
nonempty. -/
def is_valid_env_var_name (cs : List Char) : Bool :=
  match cs with
  | [] => false
  | c :: rest =>
    (isAsciiAlpha c || c = '_') && rest.all (fun d => isAsciiAlphanum d || d = '_')

/-- Quote stripping, from `src/scanner/env_parser.rs` (`strip_quotes`):
trim, then remove one matching pair of surrounding double or single quotes
when the trimmed text has length at least two. -/
def strip_quotes (cs : List Char) : List Char :=
  let s := trimChars cs
  if ((s.head? == some '"' && s.getLast? == some '"') ||
      (s.head? == some '\'' && s.getLast? == some '\'')) && 2 ≤ s.length then
    (s.drop 1).dropLast
  else s

/-- Removal of a leading `export ` token, modelling the
`line.strip_prefix("export ")` step of `parse_env_line`. -/
def dropExportTag (cs : List Char) : List Char :=
  match cs with
  | 'e' :: 'x' :: 'p' :: 'o' :: 'r' :: 't' :: ' ' :: rest => rest
  | _ => cs

/-- Parse a single (already trimmed) line of an environment file, from
`src/scanner/env_parser.rs` (`parse_env_line`): strip `export `, split at
the first `=` (no `=` means no definition), trim both sides, validate the
key, and strip one matching pair of quotes from the value. -/
def parse_env_line (l : List Char) : Option (List Char × List Char) :=
  let l1 := dropExportTag l
  let lhs := l1.takeWhile (fun c => c != '=')
  match l1.dropWhile (fun c => c != '=') with
  | [] => none
  | _ :: rhs =>
    let key := trimChars lhs
    let value := trimChars rhs
    if is_valid_env_var_name key then some (key, strip_quotes value) else none

/-- Per-line driver of environment-file parsing, from
`src/scanner/env_parser.rs` (`parse_env_file`): 1-indexed lines, trim,
skip blank lines and lines starting with `#`, and collect the definitions
produced by `parse_env_line`.  The line list models the result of Rust
`content.lines()`. -/
def parseEnvLines (lines : List String) (path : String) : List EnvVarDefinition :=
  lines.enum.filterMap fun p =>
    let t := trimChars p.2.data
    if t.isEmpty || t.head? == some '#' then none
    else (parse_env_line t).map fun kv =>
      { name := String.mk kv.1, value := some (String.mk kv.2),
        source_file := path, line := p.1 + 1 }

/-- Strip one trailing carriage return, as Rust `str::lines` does. -/
def stripCR (cs : List Char) : List Char :=
  if cs.getLast? == some '\r' then cs.dropLast else cs

/-- Split text into lines, modelling Rust `str::lines` (split on `\n`,
drop a final empty segment produced by a trailing newline, strip one
trailing `\r` per line). -/
def linesOf (s : String) : List String :=
  if s.data.isEmpty then []
  else
    let parts := s.data.splitOn '\n'
    let parts := if parts.getLast? == some [] then parts.dropLast else parts
    parts.map (fun cs => String.mk (stripCR cs))

/-- Location of a usage, as constructed in `src/analysis/missing.rs` and
`src/analysis/naming.rs`. -/
def usageLoc (u : EnvVarUsage) : Location :=
  { file := u.file_path, line := some u.line, column := some u.column }

/-- Location of a definition, as constructed in `src/analysis/unused.rs`
and `src/analysis/naming.rs` (no column). -/
def defLoc (d : EnvVarDefinition) : Location :=
  { file := d.source_file, line := some d.line, column := none }

/-- Message for a missing variable, from `src/analysis/missing.rs`:
singular wording for exactly one location, a count otherwise. -/
def missingMessage (name : String) (n : Nat) : String :=
  if n = 1 then
    s!"\x27{name}\x27 is used in code but not defined in any .env file"
  else
    s!"\x27{name}\x27 is used in {n} locations but not defined in any .env file"

/-- The canonical first-occurrence enumeration of `names(usages) −
names(definitions)`.  The Rust code materialises this set via `HashSet`
difference, whose iteration order is unspecified; theorems therefore take
the enumeration as a parameter constrained to be a permutation of this
list. -/
def missingCanon (definitions : List EnvVarDefinition)
    (usages : List EnvVarUsage) : List String :=
  ((usages.map (·.name)).dedup).filter
    (fun n => !(definitions.any (fun d => d.name == n)))

/-- The canonical first-occurrence enumeration of `names(definitions) −
names(usages)`. -/
def unusedCanon (definitions : List EnvVarDefinition)
    (usages : List EnvVarUsage) : List String :=
  ((definitions.map (·.name)).dedup).filter
    (fun n => !(usages.any (fun u => u.name == n)))

/-- The issue built for one missing name, following the loop body of
`find_missing_vars` in `src/analysis/missing.rs`. -/
def mkMissingIssue (usages : List EnvVarUsage) (name : String) : Issue :=
  let locations := (usages.filter (fun u => u.name == name)).map usageLoc
  { kind := .MissingEnvVar, severity := .Error, var_name := name,
    message := missingMessage name locations.length,
    locations := locations,
    suggestion := some s!"Add {name} to your .env file" }

/-- Environment variables used but not defined, from
`src/analysis/missing.rs` (`find_missing_vars`).  `missingNames` is the
`HashSet`-difference enumeration (see `missingCanon`). -/
def find_missing_vars (definitions : List EnvVarDefinition)
    (usages : List EnvVarUsage) (missingNames : List String) : List Issue :=
  let _ := definitions
  missingNames.map (mkMissingIssue usages)

/-- The issue built for one unused name, following the loop body of
`find_unused_vars` in `src/analysis/unused.rs`. -/
def mkUnusedIssue (definitions : List EnvVarDefinition) (name : String) : Issue :=
  let locations := (definitions.filter (fun d => d.name == name)).map defLoc
  { kind := .UnusedEnvVar, severity := .Warning, var_name := name,
    message := s!"\x27{name}\x27 is defined but never used in code",
    locations := locations,
    suggestion := some s!"Remove {name} from your .env file if it\x27s no longer needed" }

/-- Environment variables defined but never used, from
`src/analysis/unused.rs` (`find_unused_vars`).  `unusedNames` is the
`HashSet`-difference enumeration (see `unusedCanon`). -/
def find_unused_vars (definitions : List EnvVarDefinition)
    (usages : List EnvVarUsage) (unusedNames : List String) : List Issue :=
  let _ := usages
  unusedNames.map (mkUnusedIssue definitions)

/-- Comparator used to sort the merged location list in
`src/analysis/naming.rs`: by file, then by line. -/
def locCmp (a b : Location) : Ordering :=
  (strCmp a.file b.file).then (optNatCmp a.line b.line)

/-- Equality of file and line, the `dedup_by` criterion of
`src/analysis/naming.rs`. -/
def sameFileLine (a b : Location) : Bool :=
  a.file == b.file && a.line == b.line

/-- Tail worker for `dedupByFL`; `last` is the most recently kept
element. -/
def dedupFLAux (last : Location) : List Location → List Location
  | [] => []
  | x :: t => if sameFileLine x last then dedupFLAux last t else x :: dedupFLAux x t

/-- Removal of consecutive locations sharing file and line, modelling Rust
`Vec::dedup_by` (keeps the first element of each run). -/
def dedupByFL : List Location → List Location
  | [] => []
  | a :: t => a :: dedupFLAux a t

/-- Merged, sorted, deduplicated locations for one alternative name, from
the loop body of `find_naming_issues` in `src/analysis/naming.rs`. -/
def namingLocations (definitions : List EnvVarDefinition)
    (usages : List EnvVarUsage) (altName : String) : List Location :=
  let locs := (definitions.filter (fun d => d.name == altName)).map defLoc
    ++ (usages.filter (fun u => u.name == altName)).map usageLoc
  dedupByFL (insertionSort locCmp locs)

/-- The issue built for one present alternative name, following the loop
body of `find_naming_issues` in `src/analysis/naming.rs`. -/
def mkNamingIssue (definitions : List EnvVarDefinition)
    (usages : List EnvVarUsage) (rule : NamingRule) (altName : String) : Issue :=
  { kind := .InconsistentNaming, severity := rule.severity, var_name := altName,
    message := s!"\x27{altName}\x27 could be renamed to \x27{rule.preferred}\x27 for consistency",
    locations := namingLocations definitions usages altName,
    suggestion := some (s!"Consider using \x27{rule.preferred}\x27 instead of \x27{altName}\x27"
      ++ (match rule.description with
          | some d => s!" ({d})"
          | none => "")) }

/-- Membership of a name in the union of defined and used names, the
`all_names.contains` test of `src/analysis/naming.rs`. -/
def presentIn (definitions : List EnvVarDefinition)
    (usages : List EnvVarUsage) (n : String) : Bool :=
  definitions.any (fun d => d.name == n) || usages.any (fun u => u.name == n)

/-- Matching against any compiled ignore regex, the
`ignore_regexes.iter().any(|re| re.is_match(alt_name))` test of
`src/analysis/naming.rs`.  Compiled regexes are modelled by their
membership predicates. -/
def ignoredBy (pats : List (String → Bool)) (n : String) : Bool :=
  pats.any (fun p => p n)

/-- Naming-convention issues, from `src/analysis/naming.rs`
(`find_naming_issues`): for each rule, for each alternative present among
defined or used names and not matched by an ignore pattern, one issue. -/
def find_naming_issues (definitions : List EnvVarDefinition)
    (usages : List EnvVarUsage) (rules : List NamingRule)
    (ignorePats : List (String → Bool)) : List Issue :=
  rules.flatMap fun rule =>
    (rule.alternatives.filter (presentIn definitions usages)).filterMap fun alt =>
      if ignoredBy ignorePats alt then none
      else some (mkNamingIssue definitions usages rule alt)

/-- The built-in naming rules, verbatim from `src/rules/builtin.rs`. -/
def get_builtin_rules : List NamingRule :=
  [ { name := "database-url", description := some "Database connection URL",
      alternatives := ["DB_URL", "DB_CONNECTION", "DB_HOST"],
      preferred := "DATABASE_URL", severity := .Warning },
    { name := "redis-url", description := some "Redis connection URL",
      alternatives := ["REDIS_HOST", "REDIS_CONNECTION"],
      preferred := "REDIS_URL", severity := .Warning },
    { name := "api-key", description := some "API key naming",
      alternatives := ["APIKEY", "API_SECRET"],
      preferred := "API_KEY", severity := .Info },
    { name := "secret-key", description := some "Secret key naming",
      alternatives := ["SECRET", "APP_SECRET"],
      preferred := "SECRET_KEY", severity := .Info },
    { name := "port", description := some "Application port",
      alternatives := ["APP_PORT", "SERVER_PORT", "HTTP_PORT"],
      preferred := "PORT", severity := .Info },
    { name := "log-level", description := some "Logging level",
      alternatives := ["LOGLEVEL", "LOGGING_LEVEL"],
      preferred := "LOG_LEVEL", severity := .Info },
    { name := "aws-region", description := some "AWS region",
      alternatives := ["REGION", "AMAZON_REGION"],
      preferred := "AWS_REGION", severity := .Info },
    { name := "jwt-secret", description := some "JWT signing secret",
      alternatives := ["JWT_KEY", "TOKEN_SECRET"],
      preferred := "JWT_SECRET", severity := .Info } ]

/-- All naming rules, from `src/rules/mod.rs` (`get_all_rules`): built-in
rules when enabled, followed by the custom rules from configuration. -/
def get_all_rules (config : Config) : List NamingRule :=
  (if config.naming.builtin_rules then get_builtin_rules else [])
    ++ config.naming.custom_rules

/-- The final issue comparator of `src/analysis/mod.rs` (`analyze`):
severity descending, then variable name ascending, literally
`b.severity.cmp(&a.severity).then_with(|| a.var_name.cmp(&b.var_name))`. -/
def cmpIssue (a b : Issue) : Ordering :=
  (natCmp (sevRank b.severity) (sevRank a.severity)).then
    (strCmp a.var_name b.var_name)

/-- Combined analysis, from `src/analysis/mod.rs` (`analyze`): missing,
unused, and naming issues concatenated and stably sorted by `cmpIssue`.
The two name-enumeration parameters stand for the unspecified `HashSet`
iteration orders inside `find_missing_vars` and `find_unused_vars`. -/
def analyze (definitions : List EnvVarDefinition) (usages : List EnvVarUsage)
    (config : Config) (missingNames unusedNames : List String) : List Issue :=
  insertionSort cmpIssue
    (find_missing_vars definitions usages missingNames
      ++ find_unused_vars definitions usages unusedNames
      ++ find_naming_issues definitions usages (get_all_rules config)
           config.naming.ignore_patterns)

/-- Uppercase ASCII letter test, the regex class `[A-Z]`. -/
def isUpperChar (c : Char) : Bool :=
  65 ≤ c.toNat && c.toNat ≤ 90

/-- The regex class `[A-Z0-9_]` of canonical-name continuation
characters. -/
def isNameChar (c : Char) : Bool :=
  isUpperChar c || isAsciiDigit c || c = '_'

/-- The regex class `[A-Z_]` of canonical-name start characters. -/
def isNameStart (c : Char) : Bool :=
  isUpperChar c || c = '_'

/-- The canonical environment-variable name shape
`[A-Z_][A-Z0-9_]*` common to every dialect pattern. -/
def canonicalShape (cs : List Char) : Bool :=
  match cs with
  | [] => false
  | c :: rest => isNameStart c && rest.all isNameChar

/-- The regex class `['"]`: either quote character. -/
def isQuoteChar (c : Char) : Bool :=
  c = '\'' || c = '"'

/-- Word-character test for the regex `\b` boundary assertion, restricted
to ASCII (the `regex` crate uses Unicode word characters; the scanners
only place `\b` before ASCII literals, and the difference is irrelevant to
the claims settled here). -/
def isWordChar (c : Char) : Bool :=
  isAsciiAlphanum c || c = '_'

/-- Consume the greedy maximal run of name characters, provided the run is
a canonical name; mirrors the capture group `([A-Z_][A-Z0-9_]*)` (a run
starting with a digit fails the leading character class, and no
backtracking can help because name characters are disjoint from every
character the patterns require next). -/
def takeName (cs : List Char) : Option (List Char × List Char) :=
  if canonicalShape (cs.takeWhile isNameChar) then
    some (cs.takeWhile isNameChar, cs.dropWhile isNameChar)
  else none

/-- Consume one quote character (the regex class `['"]`). -/
def expectQuote : List Char → Option (List Char)
  | c :: r => if isQuoteChar c then some r else none
  | [] => none

/-- Consume one fixed character. -/
def expectChar (ch : Char) : List Char → Option (List Char)
  | c :: r => if c = ch then some r else none
  | [] => none

/-- The argument shape following a pattern's literal head. -/
inductive MStyle where
  | bracketArg
  | callArg
  | dotArg

/-- Match the tail of a scanner pattern after its literal head.  Returns
(offset of the captured name, name, matched length), all relative to the
given suffix.  `bracketArg` is `['"]name['"]\]`, `callArg` is
`\s*\(\s*['"]name['"]`, `dotArg` is a bare name capture. -/
def matchStyle : MStyle → List Char → Option (Nat × List Char × Nat)
  | .bracketArg, cs =>
    (expectQuote cs).bind fun r1 =>
      (takeName r1).bind fun p =>
        (expectQuote p.2).bind fun r3 =>
          (expectChar ']' r3).bind fun _ =>
            some (1, p.1, p.1.length + 3)
  | .callArg, cs =>
    (expectChar '(' (cs.dropWhile isWsChar)).bind fun r2 =>
      (expectQuote (r2.dropWhile isWsChar)).bind fun r3 =>
        (takeName r3).bind fun p =>
          (expectQuote p.2).bind fun _ =>
            some ((cs.takeWhile isWsChar).length + 1
                    + (r2.takeWhile isWsChar).length + 1,
                  p.1,
                  (cs.takeWhile isWsChar).length + 1
                    + (r2.takeWhile isWsChar).length + 1 + p.1.length + 1)
  | .dotArg, cs =>
    (takeName cs).bind fun p => some (0, p.1, p.1.length)

/-- Consume a literal character sequence, returning the remainder. -/
def dropLit : List Char → List Char → Option (List Char)
  | [], cs => some cs
  | _ :: _, [] => none
  | l :: ls, c :: cs => if c = l then dropLit ls cs else none

/-- One scanner pattern: optional word boundary, literal head, argument
style.  `prv` is the character preceding the current position (for `\b`).
Returns (offset of the captured name, name, total match length) relative
to the current position. -/
def tryPat (bnd : Bool) (head : List Char) (sty : MStyle)
    (prv : Option Char) (cs : List Char) : Option (Nat × List Char × Nat) :=
  if bnd && (match prv with | some c => isWordChar c | none => false) then none
  else
    (dropLit head cs).bind fun r1 =>
      (matchStyle sty r1).bind fun m =>
        some (head.length + m.1, m.2.1, head.length + m.2.2)

/-- Scan one line left to right, reproducing the leftmost non-overlapping
match enumeration of `Regex::captures_iter`: at each position the pattern
matcher is tried; on success the match is recorded and scanning resumes
after the match (`skip` counts positions still inside the last match). -/
def scanLineAux (pm : Option Char → List Char → Option (Nat × List Char × Nat)) :
    List Char → Option Char → Nat → Nat → List (Nat × List Char)
  | [], _, _, _ => []
  | c :: rest, prv, pos, skip =>
    match skip with
    | k + 1 => scanLineAux pm rest (some c) (pos + 1) k
    | 0 =>
      match pm prv (c :: rest) with
      | some m =>
        (pos + m.1, m.2.1) :: scanLineAux pm rest (some c) (pos + 1) (m.2.2 - 1)
      | none => scanLineAux pm rest (some c) (pos + 1) 0

/-- All captures of one pattern on one line, 0-based positions. -/
def scanLine (pm : Option Char → List Char → Option (Nat × List Char × Nat))
    (line : List Char) : List (Nat × List Char) :=
  scanLineAux pm line none 0 0

/-- Physical lines of a source text as character lists. -/
def linesData (content : String) : List (List Char) :=
  (linesOf content).map String.data

/-- The two Ruby patterns of `src/languages/ruby.rs`:
`ENV\[['"]([A-Z_][A-Z0-9_]*)['"]\]` and
`ENV\.fetch\s*\(\s*['"]([A-Z_][A-Z0-9_]*)['"]`. -/
def rubyPatterns : List (Option Char → List Char → Option (Nat × List Char × Nat)) :=
  [tryPat false ("ENV[".data) .bracketArg,
   tryPat false ("ENV.fetch".data) .callArg]

/-- The Ruby scanner, from `src/languages/ruby.rs` (`RubyScanner::scan`):
per line, all captures of each pattern in order, columns are 1-based match
starts of the captured name. -/
def rubyScan (content : String) (path : String) : List EnvVarUsage :=
  (linesData content).enum.flatMap fun p =>
    (rubyPatterns.flatMap fun pm => scanLine pm p.2).map fun m =>
      { name := String.mk m.2, file_path := path, line := p.1 + 1,
        column := m.1 + 1, language := .Ruby,
        context := some (String.mk (trimChars p.2)) }

/-- The six Python patterns of `src/languages/python.rs`, in source
order: `os.environ[...]`, `os.environ.get(...)`, `os.getenv(...)`,
`\benviron[...]`, `\benviron.get(...)`, `\bgetenv(...)`. -/
def pyPatterns : List (Option Char → List Char → Option (Nat × List Char × Nat)) :=
  [tryPat false ("os.environ[".data) .bracketArg,
   tryPat false ("os.environ.get".data) .callArg,
   tryPat false ("os.getenv".data) .callArg,
   tryPat true ("environ[".data) .bracketArg,
   tryPat true ("environ.get".data) .callArg,
   tryPat true ("getenv".data) .callArg]

/-- All Python captures on one line in pattern order. -/
def pyLineCands (ln : List Char) : List (Nat × List Char) :=
  pyPatterns.flatMap fun pm => scanLine pm ln

/-- Emit usages for the candidates of one line, skipping any whose
`(line, start, name)` key is already in `seen`; mirrors the
`seen.insert(key)` check of `PythonScanner::scan`. -/
def emitCands (path : String) (lineNum : Nat) (ln : List Char) :
    List (Nat × List Char) → List (Nat × Nat × List Char) →
      List EnvVarUsage × List (Nat × Nat × List Char)
  | [], seen => ([], seen)
  | m :: t, seen =>
    let key : Nat × Nat × List Char := (lineNum, m.1, m.2)
    if key ∈ seen then emitCands path lineNum ln t seen
    else
      let res := emitCands path lineNum ln t (key :: seen)
      ({ name := String.mk m.2, file_path := path, line := lineNum,
         column := m.1 + 1, language := .Python,
         context := some (String.mk (trimChars ln)) } :: res.1, res.2)

/-- Line loop of the Python scanner, threading the `seen` set across the
whole call. -/
def pyScanAux (path : String) :
    List (Nat × List Char) → List (Nat × Nat × List Char) → List EnvVarUsage
  | [], _ => []
  | p :: rest, seen =>
    let r := emitCands path (p.1 + 1) p.2 (pyLineCands p.2) seen
    r.1 ++ pyScanAux path rest r.2

/-- The Python scanner, from `src/languages/python.rs`
(`PythonScanner::scan`), including its per-call deduplication cache. -/
def pyScan (content : String) (path : String) : List EnvVarUsage :=
  pyScanAux path (linesData content).enum []

/-- Extraction of variable names from a destructuring capture, from
`src/languages/javascript.rs` (`extract_destructured_vars`): split on
commas, trim, keep the part before a `:`, trim, and keep only names whose
characters are uppercase, digits, or underscore, nonempty, with an
uppercase or underscore first character. -/
def extract_destructured_vars (cap : List Char) : List (List Char) :=
  (cap.splitOn ',').filterMap fun s =>
    let s1 := trimChars s
    let nm := trimChars (s1.takeWhile (fun c => c != ':'))
    if !nm.isEmpty
        && nm.all (fun c => isUpperChar c || isAsciiDigit c || c = '_')
        && (match nm.head? with | some c => isUpperChar c || c = '_' | none => false)
    then some nm else none

/-- Match one of the keywords `const`, `let`, `var` (the regex alternation
`(?:const|let|var)`; at a fixed position at most one alternative can
match since their first characters differ). -/
def matchKw (cs : List Char) : Option (Nat × List Char) :=
  match dropLit ("const".data) cs with
  | some r => some (5, r)
  | none =>
    match dropLit ("let".data) cs with
    | some r => some (3, r)
    | none =>
      match dropLit ("var".data) cs with
      | some r => some (3, r)
      | none => none

/-- Matcher for the destructuring pattern
`(?:const|let|var)\s*\{\s*([^}]+)\s*\}\s*=\s*process\.env` of
`src/languages/javascript.rs`.  The capture is the maximal brace-free run
after the greedy whitespace following the opening brace; regex
backtracking can additionally admit an all-whitespace capture, which
yields no variable names and hence no usages either way, so it is not
modelled. -/
def tryDestructure (prv : Option Char) (cs : List Char) :
    Option (Nat × List Char × Nat) :=
  let _ := prv
  match matchKw cs with
  | none => none
  | some (kwLen, r1) =>
    let w1 := r1.takeWhile isWsChar
    match r1.dropWhile isWsChar with
    | '\x7b' :: r2 =>
      let w2 := r2.takeWhile isWsChar
      let r3 := r2.dropWhile isWsChar
      let cap := r3.takeWhile (fun c => c != '\x7d')
      if cap.isEmpty then none
      else
        match r3.dropWhile (fun c => c != '\x7d') with
        | '\x7d' :: r4 =>
          let w3 := r4.takeWhile isWsChar
          match r4.dropWhile isWsChar with
          | '=' :: r5 =>
            let w4 := r5.takeWhile isWsChar
            match dropLit ("process.env".data) (r5.dropWhile isWsChar) with
            | some _ =>
              let off := kwLen + w1.length + 1 + w2.length
              some (off, cap,
                off + cap.length + 1 + w3.length + 1 + w4.length + 11)
            | none => none
          | _ => none
        | _ => none
    | _ => none

/-- The JavaScript scanner, from `src/languages/javascript.rs`
(`JavaScriptScanner::scan`): per line, the `process.env.NAME`,
`process.env['"NAME'"]`, `import.meta.env.NAME` and destructuring
patterns in source order; destructured names all carry the column of the
capture start.  There is no deduplication cache. -/
def jsScan (content : String) (path : String) : List EnvVarUsage :=
  (linesData content).enum.flatMap fun p =>
    let lineNum := p.1 + 1
    let ln := p.2
    let ctx : Option String := some (String.mk (trimChars ln))
    let mk : Nat × List Char → EnvVarUsage := fun m =>
      { name := String.mk m.2, file_path := path, line := lineNum,
        column := m.1 + 1, language := Language.JavaScript, context := ctx }
    (scanLine (tryPat false ("process.env.".data) .dotArg) ln).map mk
      ++ (scanLine (tryPat false ("process.env[".data) .bracketArg) ln).map mk
      ++ (scanLine (tryPat false ("import.meta.env.".data) .dotArg) ln).map mk
      ++ (scanLine tryDestructure ln).flatMap fun m =>
           (extract_destructured_vars m.2).map fun nm =>
             { name := String.mk nm, file_path := path, line := lineNum,
               column := m.1 + 1, language := Language.JavaScript, context := ctx }

/-- One language scanner as registered in `src/languages/mod.rs`
(`LanguageScanner` trait object): its extension list and its scan
function.  `CodeScanner` is generic in the registered scanners, so the
file-level theorems quantify over this list. -/
structure LangScanner where
  exts : List String
  scanFn : String → String → List EnvVarUsage

/-- The embedded Ruby scanner entry. -/
def rubyScanner : LangScanner :=
  { exts := ["rb"], scanFn := rubyScan }

/-- The embedded Python scanner entry. -/
def pythonScanner : LangScanner :=
  { exts := ["py"], scanFn := pyScan }

/-- The embedded JavaScript/TypeScript scanner entry. -/
def javascriptScanner : LangScanner :=
  { exts := ["js", "mjs", "cjs", "jsx", "ts", "mts", "cts", "tsx"],
    scanFn := jsScan }

/-- ASCII lowercasing of one character, modelling `str::to_lowercase` on
the ASCII extensions that occur in the registry. -/
def lowerChar (c : Char) : Char :=
  if 65 ≤ c.toNat && c.toNat ≤ 90 then Char.ofNat (c.toNat + 32) else c

/-- Extension of a path, modelling Rust `Path::extension`: the part of the
final component after the last dot, none when there is no dot or only a
single leading dot. -/
def extensionOf (p : String) : Option (List Char) :=
  let fn := (p.data.splitOn '/').getLastD []
  match fn.splitOn '.' with
  | [] => none
  | [_] => none
  | first :: rest =>
    if first.isEmpty && rest.length == 1 then none
    else some (rest.getLastD [])

/-- Scanner lookup, from `src/languages/mod.rs`
(`LanguageRegistry::get_scanner_for_file`): lowercase the extension and
return the first registered scanner claiming it. -/
def get_scanner_for_file (scanners : List LangScanner) (p : String) :
    Option LangScanner :=
  match extensionOf p with
  | none => none
  | some ext =>
    let e := String.mk (ext.map lowerChar)
    scanners.find? (fun s => s.exts.contains e)

/-- Scan of a single file, from `src/scanner/code_scanner.rs`
(`CodeScanner::scan_file`): reading the file can fail (the error carries
the path); a file with no matching scanner yields no usages.  The file
system is modelled as a partial map from paths to contents, `none`
meaning unreadable. -/
def scan_file (fs : String → Option String) (scanners : List LangScanner)
    (p : String) : Except String (List EnvVarUsage) :=
  match fs p with
  | none => .error p
  | some content =>
    match get_scanner_for_file scanners p with
    | none => .ok []
    | some s => .ok (s.scanFn content p)

/-- Scan of a file set, from `src/scanner/code_scanner.rs`
(`CodeScanner::scan_files`): per-file errors are dropped by `filter_map`
and the per-file usage lists are concatenated (rayon collects in input
order). -/
def scan_files (fs : String → Option String) (scanners : List LangScanner)
    (files : List String) : List EnvVarUsage :=
  (files.filterMap (fun p => (scan_file fs scanners p).toOption)).flatten

/-- Environment-file parsing entry point, from
`src/scanner/env_parser.rs` (`parse_env_file`): an unreadable file is an
error whose message names the path; otherwise the line parser runs. -/
def parse_env_file (fs : String → Option String) (path : String) :
    Except String (List EnvVarDefinition) :=
  match fs path with
  | none => .error s!"Failed to read env file: {path}"
  | some content => .ok (parseEnvLines (linesOf content) path)

/-- Summary recomputation, from `src/types.rs`
(`ScanReport::calculate_summary`). -/
def calculate_summary (r : ScanReport) : ScanReport :=
  { r with summary :=
    { r.summary with
      total_issues := r.issues.length,
      errors := r.issues.countP (fun i => i.severity == .Error),
      warnings := r.issues.countP (fun i => i.severity == .Warning),
      infos := r.issues.countP (fun i => i.severity == .Info),
      vars_defined := r.definitions.length,
      vars_used := ((r.usages.map (·.name)).dedup).length } }


/-- Three-way comparison of locations by (file, line, column) — the
ordering the specification asserts for missing-variable locations.  Used
to state that ordering; the code itself never sorts these locations. -/
def locCmpFull (a b : Location) : Ordering :=
  ((strCmp a.file b.file).then (optNatCmp a.line b.line)).then
    (optNatCmp a.column b.column)

/-- The deduplication key of a usage as tracked by the Python scanner's
`seen` set: `(line, 0-based match start, name characters)`. -/
def usageKey (u : EnvVarUsage) : Nat × Nat × List Char :=
  (u.line, u.column - 1, u.name.data)

/-! ## Theorems for the claims -/

theorem count_name_of_perm_canon {σ canon : List String}
    (hσ : List.Perm σ canon) (hn : canon.Nodup) (n : String) :
    σ.count n = if n ∈ canon then 1 else 0 := by
  rw [hσ.count_eq]
  split <;> rename_i h
  · exact List.count_eq_one_of_mem hn h
  · exact List.count_eq_zero_of_not_mem h

/-- Membership in `missingCanon` spelled out. -/
theorem mem_missingCanon {definitions : List EnvVarDefinition}
    {usages : List EnvVarUsage} {n : String} :
    n ∈ missingCanon definitions usages
      ↔ n ∈ usages.map (·.name) ∧ n ∉ definitions.map (·.name) := by
  unfold missingCanon
  simp [List.mem_filter, List.mem_dedup, List.mem_map, List.any_eq_true]

/-- Membership in `unusedCanon` spelled out. -/
theorem mem_unusedCanon {definitions : List EnvVarDefinition}
    {usages : List EnvVarUsage} {n : String} :
    n ∈ unusedCanon definitions usages
      ↔ n ∈ definitions.map (·.name) ∧ n ∉ usages.map (·.name) := by
  unfold unusedCanon
  simp [List.mem_filter, List.mem_dedup, List.mem_map, List.any_eq_true]

theorem missingCanon_nodup (definitions : List EnvVarDefinition)
    (usages : List EnvVarUsage) : (missingCanon definitions usages).Nodup :=
  (List.nodup_dedup _).filter _

theorem unusedCanon_nodup (definitions : List EnvVarDefinition)
    (usages : List EnvVarUsage) : (unusedCanon definitions usages).Nodup :=
  (List.nodup_dedup _).filter _

/-- C9 (amended): every summary field recomputed by `calculate_summary` is
derived from the report's own contents: `total_issues` is the number of
issues, `errors`/`warnings`/`infos` are the per-severity counts,
`vars_used` is the number of distinct used variable names, and
`vars_defined` is the number of definition entries (duplicates included —
this is where the original claim fails); the issue, definition, and usage
lists themselves are unchanged. -/
theorem calculate_summary_spec (r : ScanReport) :
    (calculate_summary r).summary.total_issues
      = (calculate_summary r).issues.length
    ∧ (calculate_summary r).summary.errors
      = ((calculate_summary r).issues.filter (fun i => i.severity == .Error)).length
    ∧ (calculate_summary r).summary.warnings
      = ((calculate_summary r).issues.filter (fun i => i.severity == .Warning)).length
    ∧ (calculate_summary r).summary.infos
      = ((calculate_summary r).issues.filter (fun i => i.severity == .Info)).length
    ∧ (calculate_summary r).summary.vars_defined
      = (calculate_summary r).definitions.length
    ∧ (calculate_summary r).summary.vars_used
      = ((calculate_summary r).usages.map (·.name)).toFinset.card
    ∧ (calculate_summary r).issues = r.issues
    ∧ (calculate_summary r).definitions = r.definitions
    ∧ (calculate_summary r).usages = r.usages := by
  refine ⟨rfl, ?_, ?_, ?_, rfl, ?_, rfl, rfl, rfl⟩
  · exact (List.countP_eq_length_filter _ _)
  · exact (List.countP_eq_length_filter _ _)
  · exact (List.countP_eq_length_filter _ _)
  · exact (List.card_toFinset _).symm

/-- C9 counterexample: on a report with two definitions of the same name,
`vars_defined` is the number of definition entries (2), not the number of
distinct defined names (1), contradicting the claim that `vars_defined`
equals the number of distinct defined variable names. -/
theorem calculate_summary_counterexample :
    (calculate_summary
      { summary := { files_scanned := 0, env_files_found := 0,
                     vars_defined := 0, vars_used := 0, total_issues := 0,
                     errors := 0, warnings := 0, infos := 0 },
        issues := [],
        definitions := [{ name := "API_KEY", value := some "a",
                          source_file := ".env", line := 1 },
                        { name := "API_KEY", value := some "b",
                          source_file := ".env", line := 2 }],
        usages := [], scan_duration_ms := 0 }).summary.vars_defined = 2
    ∧ ([ "API_KEY", "API_KEY" ] : List String).toFinset.card = 1 := by
  constructor
  · rfl
  · decide

/-- C10: every definition produced by the environment-file parser carries a
present (`some`) value — `value := none` is never produced — and a line
with an empty right-hand side such as `EMPTY_VAR=` yields the definition
with value `some ""`. -/
theorem parser_value_always_some :
    (∀ (lines : List String) (path : String) (d : EnvVarDefinition),
      d ∈ parseEnvLines lines path → ∃ s, d.value = some s)
    ∧ (∀ path : String,
        parseEnvLines ["EMPTY_VAR="] path
          = [{ name := "EMPTY_VAR", value := some "", source_file := path,
               line := 1 }]) := by
  constructor
  · intro lines path d hd
    unfold parseEnvLines at hd
    rcases List.mem_filterMap.mp hd with ⟨p, _, hp⟩
    simp only at hp
    split at hp
    · exact absurd hp (by simp)
    · rcases Option.map_eq_some'.mp hp with ⟨kv, _, hkv⟩
      exact ⟨String.mk kv.2, by rw [← hkv]⟩
  · intro path
    rfl

/-- C10 witness: the general clause applied to the concrete `EMPTY_VAR=`
input. -/
theorem parser_value_always_some_witness :
    ∃ s, (EnvVarDefinition.mk "EMPTY_VAR" (some "") ".env" 1).value = some s := by
  refine parser_value_always_some.1 ["EMPTY_VAR="] ".env" _ ?_
  rw [parser_value_always_some.2 ".env"]
  simp

/-- C3: environment-file line processing — trimming, blank/comment
skipping, `export ` stripping, first-`=` splitting (no `=` means no
definition), identifier validation of the left-hand side (silently
rejecting invalid keys), and trimming plus one-matching-quote-pair
stripping of the right-hand side; in particular
`export API_KEY="abc 123"` yields `{name: API_KEY, value: "abc 123"}`,
while `123BAD=x` and `# comment` yield no definition. -/
theorem env_line_grammar_spec :
    (∀ path : String,
      parseEnvLines ["export API_KEY=\"abc 123\""] path
        = [{ name := "API_KEY", value := some "abc 123", source_file := path,
             line := 1 }])
    ∧ (∀ path : String, parseEnvLines ["123BAD=x"] path = [])
    ∧ (∀ path : String, parseEnvLines ["# comment"] path = [])
    ∧ (∀ path : String, parseEnvLines ["ONLY_KEY_NO_EQUALS"] path = [])
    ∧ (∀ path : String, parseEnvLines ["   "] path = [])
    ∧ (∀ path : String,
      parseEnvLines ["TOKEN_A='x y'"] path
        = [{ name := "TOKEN_A", value := some "x y", source_file := path,
             line := 1 }])
    ∧ (∀ path : String,
      parseEnvLines ["KEY_B=\"x"] path
        = [{ name := "KEY_B", value := some "\"x", source_file := path,
             line := 1 }])
    ∧ (∀ (l : String) (path : String),
      (trimChars l.data = [] ∨ (trimChars l.data).head? = some '#') →
      parseEnvLines [l] path = [])
    ∧ (∀ l : List Char, ('=' ∉ dropExportTag l) → parse_env_line l = none)
    ∧ (∀ (l : List Char) (k v : List Char),
      parse_env_line l = some (k, v) → is_valid_env_var_name k = true) := by
  refine ⟨fun _ => rfl, fun _ => rfl, fun _ => rfl, fun _ => rfl, fun _ => rfl,
    fun _ => rfl, fun _ => rfl, ?_, ?_, ?_⟩
  · intro l path h
    rcases h with h | h
    · simp [parseEnvLines, List.enum, List.enumFrom, h]
    · simp [parseEnvLines, List.enum, List.enumFrom, h]
  · intro l h
    unfold parse_env_line
    have : (dropExportTag l).dropWhile (fun c => c != '=') = [] := by
      rw [List.dropWhile_eq_nil_iff]
      intro x hx
      simp only [bne_iff_ne, ne_eq]
      intro he
      exact h (he ▸ hx)
    simp only [this]
  · intro l k v h
    have h2 : (match List.dropWhile (fun c => c != '=') (dropExportTag l) with
      | [] => (none : Option (List Char × List Char))
      | _ :: rhs =>
        if is_valid_env_var_name
            (trimChars (List.takeWhile (fun c => c != '=') (dropExportTag l)))
            = true then
          some (trimChars (List.takeWhile (fun c => c != '=') (dropExportTag l)),
            strip_quotes (trimChars rhs))
        else none) = some (k, v) := h
    split at h2
    · exact absurd h2 (by simp)
    · split at h2 <;> rename_i hval
      · have hk : trimChars (List.takeWhile (fun c => c != '=') (dropExportTag l)) = k :=
          congrArg Prod.fst (Option.some.inj h2)
        rw [← hk]
        exact hval
      · exact absurd h2 (by simp)

/-- C3 witness: the hypothesis-bearing clauses of `env_line_grammar_spec`
applied to concrete lines. -/
theorem env_line_grammar_spec_witness :
    parseEnvLines ["   # note"] ".env" = []
    ∧ parse_env_line ("NO_EQ_HERE".data) = none
    ∧ is_valid_env_var_name ("A".data) = true := by
  refine ⟨?_, ?_, ?_⟩
  · exact env_line_grammar_spec.2.2.2.2.2.2.2.1 "   # note" ".env" (Or.inr (by decide))
  · exact env_line_grammar_spec.2.2.2.2.2.2.2.2.1 ("NO_EQ_HERE".data) (by decide)
  · exact env_line_grammar_spec.2.2.2.2.2.2.2.2.2 ("A=1".data) ("A".data) ("1".data)
      (by decide)

theorem perm_of_nodup_mem_iff {α : Type} [DecidableEq α] {l1 l2 : List α}
    (h1 : l1.Nodup) (h2 : l2.Nodup) (h : ∀ a, a ∈ l1 ↔ a ∈ l2) :
    List.Perm l1 l2 := by
  rw [List.perm_iff_count]
  intro a
  by_cases ha : a ∈ l1
  · rw [List.count_eq_one_of_mem h1 ha, List.count_eq_one_of_mem h2 ((h a).mp ha)]
  · rw [List.count_eq_zero_of_not_mem ha,
      List.count_eq_zero_of_not_mem (fun hb => ha ((h a).mpr hb))]

theorem find_missing_vars_map_name (definitions : List EnvVarDefinition)
    (usages : List EnvVarUsage) (σ : List String) :
    (find_missing_vars definitions usages σ).map Issue.var_name = σ := by
  unfold find_missing_vars
  rw [List.map_map]
  have h : (Issue.var_name ∘ mkMissingIssue usages) = id := by
    funext x; rfl
  rw [h, List.map_id]

theorem find_unused_vars_map_name (definitions : List EnvVarDefinition)
    (usages : List EnvVarUsage) (σ : List String) :
    (find_unused_vars definitions usages σ).map Issue.var_name = σ := by
  unfold find_unused_vars
  rw [List.map_map]
  have h : (Issue.var_name ∘ mkUnusedIssue definitions) = id := by
    funext x; rfl
  rw [h, List.map_id]

/-- C1 (amended): `find_missing_vars` produces exactly one issue per name
in `names(U) − names(D)` and `find_unused_vars` exactly one per name in
`names(D) − names(U)` (case-sensitive); which names are flagged is
invariant under permutation and duplication of elements of `D` and `U`
(stated for the missing side as a name-multiset permutation under any
inputs with the same name sets), and if `names(D) = names(U)` both results
are empty.  The original claim's full-result invariance fails: each
issue's location list follows the input order and multiplicity (see the
counterexample). -/
theorem set_difference_spec (definitions : List EnvVarDefinition)
    (usages : List EnvVarUsage) (σm σu : List String)
    (hm : List.Perm σm (missingCanon definitions usages))
    (hu : List.Perm σu (unusedCanon definitions usages)) :
    (∀ n, (find_missing_vars definitions usages σm).countP
        (fun i => i.var_name == n)
      = if n ∈ usages.map (·.name) ∧ n ∉ definitions.map (·.name) then 1 else 0)
    ∧ (∀ n, (find_unused_vars definitions usages σu).countP
        (fun i => i.var_name == n)
      = if n ∈ definitions.map (·.name) ∧ n ∉ usages.map (·.name) then 1 else 0)
    ∧ ((∀ n, n ∈ definitions.map (·.name) ↔ n ∈ usages.map (·.name)) →
        find_missing_vars definitions usages σm = []
        ∧ find_unused_vars definitions usages σu = [])
    ∧ (∀ (definitions2 : List EnvVarDefinition) (usages2 : List EnvVarUsage)
        (σm2 : List String),
        List.Perm σm2 (missingCanon definitions2 usages2) →
        (∀ n, n ∈ definitions2.map (·.name) ↔ n ∈ definitions.map (·.name)) →
        (∀ n, n ∈ usages2.map (·.name) ↔ n ∈ usages.map (·.name)) →
        List.Perm ((find_missing_vars definitions2 usages2 σm2).map Issue.var_name)
          ((find_missing_vars definitions usages σm).map Issue.var_name)) := by
  refine ⟨?_, ?_, ?_, ?_⟩
  · intro n
    have h1 : (find_missing_vars definitions usages σm).countP
        (fun i => i.var_name == n) = σm.countP (fun x => x == n) := by
      unfold find_missing_vars
      rw [List.countP_map]
      rfl
    rw [h1, ← List.count_eq_countP,
      count_name_of_perm_canon hm (missingCanon_nodup _ _) n]
    by_cases hmem : n ∈ missingCanon definitions usages
    · rw [if_pos hmem, if_pos (mem_missingCanon.mp hmem)]
    · rw [if_neg hmem, if_neg (fun hc => hmem (mem_missingCanon.mpr hc))]
  · intro n
    have h1 : (find_unused_vars definitions usages σu).countP
        (fun i => i.var_name == n) = σu.countP (fun x => x == n) := by
      unfold find_unused_vars
      rw [List.countP_map]
      rfl
    rw [h1, ← List.count_eq_countP,
      count_name_of_perm_canon hu (unusedCanon_nodup _ _) n]
    by_cases hmem : n ∈ unusedCanon definitions usages
    · rw [if_pos hmem, if_pos (mem_unusedCanon.mp hmem)]
    · rw [if_neg hmem, if_neg (fun hc => hmem (mem_unusedCanon.mpr hc))]
  · intro hiff
    have hm0 : missingCanon definitions usages = [] := by
      rw [List.eq_nil_iff_forall_not_mem]
      intro n hn
      rcases mem_missingCanon.mp hn with ⟨h1, h2⟩
      exact h2 ((hiff n).mpr h1)
    have hu0 : unusedCanon definitions usages = [] := by
      rw [List.eq_nil_iff_forall_not_mem]
      intro n hn
      rcases mem_unusedCanon.mp hn with ⟨h1, h2⟩
      exact h2 ((hiff n).mp h1)
    constructor
    · have : σm = [] := (hm0 ▸ hm).eq_nil
      rw [this]; rfl
    · have : σu = [] := (hu0 ▸ hu).eq_nil
      rw [this]; rfl
  · intro definitions2 usages2 σm2 hm2 hdiff huiff
    rw [find_missing_vars_map_name, find_missing_vars_map_name]
    refine hm2.trans (List.Perm.trans ?_ hm.symm)
    refine perm_of_nodup_mem_iff (missingCanon_nodup _ _) (missingCanon_nodup _ _) ?_
    intro n
    rw [mem_missingCanon, mem_missingCanon, hdiff n, huiff n]

/-- C1 counterexample: duplicating a usage element leaves the name sets
unchanged (the missing-name enumeration is `["X"]` both times), yet
`find_missing_vars` returns different issue lists — the duplicated input
yields two locations and the plural message — so the full results are not
invariant under duplication of elements of `U` as the claim states. -/
theorem set_difference_counterexample :
    missingCanon []
      [{ name := "X", file_path := "app.js", line := 1, column := 5,
         language := .JavaScript, context := none }] = ["X"]
    ∧ missingCanon []
      [{ name := "X", file_path := "app.js", line := 1, column := 5,
         language := .JavaScript, context := none },
       { name := "X", file_path := "app.js", line := 1, column := 5,
         language := .JavaScript, context := none }] = ["X"]
    ∧ find_missing_vars []
        [{ name := "X", file_path := "app.js", line := 1, column := 5,
           language := .JavaScript, context := none }] ["X"]
      ≠ find_missing_vars []
        [{ name := "X", file_path := "app.js", line := 1, column := 5,
           language := .JavaScript, context := none },
         { name := "X", file_path := "app.js", line := 1, column := 5,
           language := .JavaScript, context := none }] ["X"] := by
  refine ⟨by decide, by decide, by decide⟩

/-- C1 witness: the amended theorem applied to one definition of `A` and
one usage of `X`, with the canonical enumerations. -/
theorem set_difference_spec_witness :
    (find_missing_vars
        [{ name := "A", value := some "1", source_file := ".env", line := 1 }]
        [{ name := "X", file_path := "a.js", line := 1, column := 5,
           language := .JavaScript, context := none }] ["X"]).countP
      (fun i => i.var_name == "X") = 1 := by
  have h := set_difference_spec
      [{ name := "A", value := some "1", source_file := ".env", line := 1 }]
      [{ name := "X", file_path := "a.js", line := 1, column := 5,
         language := .JavaScript, context := none }] ["X"] ["A"]
      (by decide) (by decide)
  rw [h.1 "X"]
  decide

/-- C5 (amended): every issue produced by `find_missing_vars` has severity
`Error` and kind `MissingEnvVar`, its locations are all usage locations of
the missing name in usage-list order (the code does not sort them — see
the counterexample), its message pluralizes based on the location count,
and its suggestion proposes adding the variable to the `.env` file. -/
theorem missing_issue_shape_spec (definitions : List EnvVarDefinition)
    (usages : List EnvVarUsage) (σ : List String) :
    ∀ i ∈ find_missing_vars definitions usages σ,
      i.severity = .Error
      ∧ i.kind = .MissingEnvVar
      ∧ i.locations = (usages.filter (fun u => u.name == i.var_name)).map usageLoc
      ∧ (i.locations.length = 1 →
          i.message =
            s!"\x27{i.var_name}\x27 is used in code but not defined in any .env file")
      ∧ (i.locations.length ≠ 1 →
          i.message =
            s!"\x27{i.var_name}\x27 is used in {i.locations.length} locations but not defined in any .env file")
      ∧ i.suggestion = some s!"Add {i.var_name} to your .env file" := by
  intro i hi
  unfold find_missing_vars at hi
  rcases List.mem_map.mp hi with ⟨n, _, rfl⟩
  refine ⟨rfl, rfl, rfl, ?_, ?_, rfl⟩
  · intro h1
    simp only [mkMissingIssue, missingMessage] at h1 ⊢
    rw [if_pos h1]
  · intro h1
    simp only [mkMissingIssue, missingMessage] at h1 ⊢
    rw [if_neg h1]

/-- C5 counterexample: with two usages of the missing name `X` arriving in
descending (file, line, column) order, the produced issue keeps them in
input order, which is not sorted by (file, line, column) as the claim
states. -/
theorem missing_locations_unsorted_counterexample :
    (find_missing_vars []
      [{ name := "X", file_path := "b.rs", line := 2, column := 5,
         language := .Rust, context := none },
       { name := "X", file_path := "a.rs", line := 1, column := 3,
         language := .Rust, context := none }] ["X"]).map Issue.locations
      = [[{ file := "b.rs", line := some 2, column := some 5 },
          { file := "a.rs", line := some 1, column := some 3 }]]
    ∧ locCmpFull { file := "b.rs", line := some 2, column := some 5 }
        { file := "a.rs", line := some 1, column := some 3 } = Ordering.gt
    ∧ ¬ List.Pairwise (fun a b => locCmpFull a b ≠ Ordering.gt)
        [({ file := "b.rs", line := some 2, column := some 5 } : Location),
         { file := "a.rs", line := some 1, column := some 3 }]
    ∧ missingCanon []
      [{ name := "X", file_path := "b.rs", line := 2, column := 5,
         language := .Rust, context := none },
       { name := "X", file_path := "a.rs", line := 1, column := 3,
         language := .Rust, context := none }] = ["X"] := by
  refine ⟨by decide, by decide, by decide, by decide⟩

/-- C5 witness: the amended theorem applied to a concrete missing issue. -/
theorem missing_issue_shape_spec_witness :
    (mkMissingIssue
      [{ name := "X", file_path := "a.js", line := 1, column := 5,
         language := .JavaScript, context := none }] "X").severity = .Error
    ∧ (mkMissingIssue
      [{ name := "X", file_path := "a.js", line := 1, column := 5,
         language := .JavaScript, context := none }] "X").suggestion
      = some "Add X to your .env file" := by
  have h := missing_issue_shape_spec []
    [{ name := "X", file_path := "a.js", line := 1, column := 5,
       language := .JavaScript, context := none }] ["X"]
    (mkMissingIssue
      [{ name := "X", file_path := "a.js", line := 1, column := 5,
         language := .JavaScript, context := none }] "X") (by decide)
  exact ⟨h.1, h.2.2.2.2.2⟩

/-- C8: usage collection never fails — an individual file that is
unreadable or matches no registered dialect contributes zero usages
without aborting `scan_files` — while directly parsing an explicitly
named environment file that cannot be read fails with an error naming
that path. -/
theorem scan_error_policy_spec (fs : String → Option String)
    (scanners : List LangScanner) (pre post : List String) (p : String)
    (h : fs p = none ∨ get_scanner_for_file scanners p = none) :
    scan_files fs scanners (pre ++ p :: post)
      = scan_files fs scanners (pre ++ post)
    ∧ (fs p = none →
        parse_env_file fs p = Except.error s!"Failed to read env file: {p}") := by
  constructor
  · unfold scan_files
    rw [List.filterMap_append, List.filterMap_append, List.filterMap_cons]
    rcases hread : fs p with _ | content
    · have hsf : (scan_file fs scanners p).toOption = none := by
        unfold scan_file
        rw [hread]
        rfl
      rw [hsf]
    · rcases h with h | h
      · rw [h] at hread; cases hread
      · have hsf : (scan_file fs scanners p).toOption = some [] := by
          unfold scan_file
          rw [hread, h]
          rfl
        rw [hsf]
        rw [List.flatten_append, List.flatten_append, List.flatten_cons]
        simp
  · intro hread
    unfold parse_env_file
    rw [hread]

/-- C8 witness: an empty file system and empty registry — the named file
is skipped by `scan_files` and rejected by `parse_env_file`. -/
theorem scan_error_policy_spec_witness :
    scan_files (fun _ => none) [] ["src/app.js"]
      = scan_files (fun _ => none) [] ([] : List String)
    ∧ parse_env_file (fun _ => none) ".env"
      = Except.error "Failed to read env file: .env" := by
  have h := scan_error_policy_spec (fun _ => none) [] [] [] "src/app.js"
    (Or.inl rfl)
  refine ⟨h.1, ?_⟩
  have h2 := scan_error_policy_spec (fun _ => none) [] [] [] ".env" (Or.inl rfl)
  rw [h2.2 rfl]
  rfl

theorem lawful_locCmp : LawfulCmp locCmp :=
  lawful_then (lawful_key lawful_strCmp (fun l : Location => l.file))
    (lawful_key lawful_optNatCmp (fun l : Location => l.line))

theorem locCmp_eq_iff {a b : Location} :
    locCmp a b = .eq ↔ a.file = b.file ∧ a.line = b.line := by
  unfold locCmp
  rw [ordering_then_eq_eq, strCmp_eq_iff, optNatCmp_eq_iff]

theorem sameFileLine_iff {a b : Location} :
    sameFileLine a b = true ↔ a.file = b.file ∧ a.line = b.line := by
  simp [sameFileLine]

theorem locCmp_lt_of_le_of_ne_key {last x : Location}
    (hle : locCmp last x ≠ .gt) (hne : ¬ (x.file = last.file ∧ x.line = last.line)) :
    locCmp last x = .lt := by
  cases h : locCmp last x with
  | lt => rfl
  | eq =>
    rcases locCmp_eq_iff.mp h with ⟨h1, h2⟩
    exact absurd ⟨h1.symm, h2.symm⟩ hne
  | gt => exact absurd h hle

theorem dedupFLAux_spec (last : Location) (l : List Location)
    (hl : List.Pairwise (fun a b => locCmp a b ≠ .gt) l)
    (hlast : ∀ y ∈ l, locCmp last y ≠ .gt) :
    List.Pairwise (fun a b => locCmp a b = .lt) (dedupFLAux last l)
    ∧ (∀ y ∈ dedupFLAux last l, locCmp last y = .lt)
    ∧ (∀ f ln, (∃ loc ∈ dedupFLAux last l, loc.file = f ∧ loc.line = ln)
        ↔ ((∃ loc ∈ l, loc.file = f ∧ loc.line = ln)
            ∧ ¬(last.file = f ∧ last.line = ln))) := by
  induction l generalizing last with
  | nil =>
    refine ⟨List.Pairwise.nil, by simp [dedupFLAux], by simp [dedupFLAux]⟩
  | cons x t ih =>
    obtain ⟨hx, ht⟩ := List.pairwise_cons.mp hl
    have hlx : locCmp last x ≠ .gt := hlast x (by simp)
    have hlt : ∀ y ∈ t, locCmp last y ≠ .gt := fun y hy => hlast y (by simp [hy])
    by_cases hs : sameFileLine x last = true
    · rcases sameFileLine_iff.mp hs with ⟨hf, hln⟩
      have hres : dedupFLAux last (x :: t) = dedupFLAux last t := by
        rw [show dedupFLAux last (x :: t)
            = if sameFileLine x last then dedupFLAux last t
              else x :: dedupFLAux x t from rfl, if_pos hs]
      obtain ⟨P, Q, R⟩ := ih last ht hlt
      rw [hres]
      refine ⟨P, Q, ?_⟩
      intro f ln
      rw [R f ln]
      constructor
      · rintro ⟨⟨loc, hloc, hkey⟩, hne⟩
        exact ⟨⟨loc, by simp [hloc], hkey⟩, hne⟩
      · rintro ⟨⟨loc, hloc, hkey⟩, hne⟩
        rcases List.mem_cons.mp hloc with rfl | hloc2
        · exact absurd ⟨hf ▸ hkey.1, hln ▸ hkey.2⟩ hne
        · exact ⟨⟨loc, hloc2, hkey⟩, hne⟩
    · have hres : dedupFLAux last (x :: t) = x :: dedupFLAux x t := by
        rw [show dedupFLAux last (x :: t)
            = if sameFileLine x last then dedupFLAux last t
              else x :: dedupFLAux x t from rfl, if_neg hs]
      have hlxlt : locCmp last x = .lt :=
        locCmp_lt_of_le_of_ne_key hlx (fun hc => hs (sameFileLine_iff.mpr hc))
      obtain ⟨P, Q, R⟩ := ih x ht hx
      rw [hres]
      refine ⟨List.pairwise_cons.mpr ⟨Q, P⟩, ?_, ?_⟩
      · intro y hy
        rcases List.mem_cons.mp hy with rfl | hy2
        · exact hlxlt
        · exact lawful_locCmp.lt_trans hlxlt (Q y hy2)
      · intro f ln
        have hkeyne : ¬ (last.file = x.file ∧ last.line = x.line) := by
          intro hc
          have := locCmp_eq_iff.mpr hc
          rw [this] at hlxlt
          cases hlxlt
        constructor
        · rintro ⟨loc, hloc, hkey⟩
          rcases List.mem_cons.mp hloc with rfl | hloc2
          · refine ⟨⟨loc, by simp, hkey⟩, ?_⟩
            intro hc
            exact hkeyne ⟨hc.1.trans hkey.1.symm, hc.2.trans hkey.2.symm⟩
          · rcases (R f ln).mp ⟨loc, hloc2, hkey⟩ with ⟨⟨loc2, hloc2m, hkey2⟩, hne2⟩
            refine ⟨⟨loc2, by simp [hloc2m], hkey2⟩, ?_⟩
            intro hc
            -- a member of t cannot carry the key of `last`
            rcases hkey2 with ⟨hk1, hk2⟩
            rcases hc with ⟨hc1, hc2⟩
            have heq : locCmp loc2 last = .eq :=
              locCmp_eq_iff.mpr ⟨hk1.trans hc1.symm, hk2.trans hc2.symm⟩
            have h1 : locCmp x loc2 ≠ .gt := hx loc2 hloc2m
            have h2 : locCmp x last = locCmp x loc2 :=
              (lawful_locCmp.congr_right x heq).symm
            have h3 : locCmp x last = .gt := by
              rw [lawful_locCmp.swap_eq, hlxlt]
              rfl
            rw [h3] at h2
            exact h1 h2.symm
        · rintro ⟨⟨loc, hloc, hkey⟩, hne⟩
          by_cases hkx : x.file = f ∧ x.line = ln
          · exact ⟨x, by simp, hkx⟩
          · rcases List.mem_cons.mp hloc with rfl | hloc2
            · exact absurd hkey hkx
            · rcases (R f ln).mpr ⟨⟨loc, hloc2, hkey⟩, fun hc => hkx hc⟩ with
                ⟨loc2, hloc2m, hkey2⟩
              exact ⟨loc2, by simp [hloc2m], hkey2⟩

theorem dedupByFL_sort_spec (locs : List Location) :
    List.Pairwise (fun a b => locCmp a b = .lt)
      (dedupByFL (insertionSort locCmp locs))
    ∧ ∀ f ln,
      (∃ loc ∈ dedupByFL (insertionSort locCmp locs),
        loc.file = f ∧ loc.line = ln)
      ↔ (∃ loc ∈ locs, loc.file = f ∧ loc.line = ln) := by
  have hsorted := insertionSort_pairwise lawful_locCmp locs
  have hperm := insertionSort_perm locCmp locs
  rcases hS : insertionSort locCmp locs with _ | ⟨a, s⟩
  · rw [hS] at hperm
    have hnil : locs = [] := hperm.symm.eq_nil
    subst hnil
    exact ⟨by simp [dedupByFL], by simp [dedupByFL]⟩
  · rw [hS] at hsorted hperm
    obtain ⟨ha, hs2⟩ := List.pairwise_cons.mp hsorted
    obtain ⟨P, Q, R⟩ := dedupFLAux_spec a s hs2 ha
    constructor
    · exact List.pairwise_cons.mpr ⟨Q, P⟩
    · intro f ln
      show (∃ loc ∈ a :: dedupFLAux a s, loc.file = f ∧ loc.line = ln) ↔ _
      constructor
      · rintro ⟨loc, hloc, hkey⟩
        rcases List.mem_cons.mp hloc with rfl | hloc2
        · exact ⟨loc, hperm.subset (by simp), hkey⟩
        · rcases (R f ln).mp ⟨loc, hloc2, hkey⟩ with ⟨⟨loc2, hloc2m, hkey2⟩, _⟩
          exact ⟨loc2, hperm.subset (by simp [hloc2m]), hkey2⟩
      · rintro ⟨loc, hloc, hkey⟩
        have hlocS : loc ∈ a :: s := hperm.mem_iff.mpr hloc
        by_cases hka : a.file = f ∧ a.line = ln
        · exact ⟨a, by simp, hka⟩
        · rcases List.mem_cons.mp hlocS with rfl | hloc2
          · exact absurd hkey hka
          · rcases (R f ln).mpr ⟨⟨loc, hloc2, hkey⟩, fun hc => hka hc⟩ with
              ⟨loc2, hloc2m, hkey2⟩
            exact ⟨loc2, by simp [hloc2m], hkey2⟩

theorem namingLocations_spec (definitions : List EnvVarDefinition)
    (usages : List EnvVarUsage) (alt : String) :
    List.Pairwise (fun a b => locCmp a b = .lt)
      (namingLocations definitions usages alt)
    ∧ ∀ f ln,
      (∃ loc ∈ namingLocations definitions usages alt,
        loc.file = f ∧ loc.line = ln)
      ↔ ((∃ d ∈ definitions, d.name = alt ∧ d.source_file = f
            ∧ (some d.line : Option Nat) = ln)
         ∨ (∃ u ∈ usages, u.name = alt ∧ u.file_path = f
            ∧ (some u.line : Option Nat) = ln)) := by
  have h := dedupByFL_sort_spec
    ((definitions.filter (fun d => d.name == alt)).map defLoc
      ++ (usages.filter (fun u => u.name == alt)).map usageLoc)
  refine ⟨h.1, ?_⟩
  intro f ln
  rw [show namingLocations definitions usages alt
      = dedupByFL (insertionSort locCmp
          ((definitions.filter (fun d => d.name == alt)).map defLoc
            ++ (usages.filter (fun u => u.name == alt)).map usageLoc)) from rfl,
    h.2 f ln]
  constructor
  · rintro ⟨loc, hloc, hkey⟩
    rcases List.mem_append.mp hloc with hm | hm
    · rcases List.mem_map.mp hm with ⟨d, hd, rfl⟩
      rcases List.mem_filter.mp hd with ⟨hdm, hdn⟩
      exact Or.inl ⟨d, hdm, by simpa using hdn, hkey.1, hkey.2⟩
    · rcases List.mem_map.mp hm with ⟨u, hu, rfl⟩
      rcases List.mem_filter.mp hu with ⟨hum, hun⟩
      exact Or.inr ⟨u, hum, by simpa using hun, hkey.1, hkey.2⟩
  · rintro (⟨d, hd, hdn, hf2, hl2⟩ | ⟨u, hu, hun, hf2, hl2⟩)
    · exact ⟨defLoc d,
        List.mem_append.mpr (Or.inl (List.mem_map.mpr
          ⟨d, List.mem_filter.mpr ⟨hd, by simp [hdn]⟩, rfl⟩)), hf2, hl2⟩
    · exact ⟨usageLoc u,
        List.mem_append.mpr (Or.inr (List.mem_map.mpr
          ⟨u, List.mem_filter.mpr ⟨hu, by simp [hun]⟩, rfl⟩)), hf2, hl2⟩

theorem filter_filterMap_if {α β : Type} (p q : α → Bool) (f : α → β)
    (l : List α) :
    (l.filter p).filterMap (fun a => if q a then none else some (f a))
      = (l.filter (fun a => p a && !(q a))).map f := by
  induction l with
  | nil => rfl
  | cons a t ih =>
    by_cases hp : p a
    · by_cases hq : q a
      · simp [List.filter_cons, hp, hq, List.filterMap_cons, ih]
      · simp [List.filter_cons, hp, hq, List.filterMap_cons, ih]
    · simp [List.filter_cons, hp, ih]

/-- C4: for each naming rule and each alternative name present among
defined or used names and not matched by any compiled ignore pattern,
`find_naming_issues` emits exactly one `InconsistentNaming` issue (in rule
order), whose locations merge every definition location and usage location
of that name deduplicated by (file, line) and sorted by (file, line),
whose severity comes from the rule, and whose suggestion names the
preferred replacement with the rule description appended in parentheses
when present; and the `DB_URL`/`DB_HOST` example produces exactly one
issue, for `DB_URL`. -/
theorem naming_rule_spec :
    (∀ (definitions : List EnvVarDefinition) (usages : List EnvVarUsage)
        (rules : List NamingRule) (pats : List (String → Bool)),
      find_naming_issues definitions usages rules pats
        = rules.flatMap (fun r =>
            ((r.alternatives.filter (fun alt =>
                presentIn definitions usages alt
                  && !(ignoredBy pats alt))).map
              (mkNamingIssue definitions usages r))))
    ∧ (∀ (definitions : List EnvVarDefinition) (usages : List EnvVarUsage)
        (pats : List (String → Bool)) (r : NamingRule) (alt : String),
      r.alternatives.Nodup →
      ((r.alternatives.filter (fun a =>
          presentIn definitions usages a && !(ignoredBy pats a))).map
        (mkNamingIssue definitions usages r)).countP
          (fun i => i.var_name == alt)
        = if alt ∈ r.alternatives ∧ presentIn definitions usages alt = true
            ∧ ignoredBy pats alt = false then 1 else 0)
    ∧ (∀ (definitions : List EnvVarDefinition) (usages : List EnvVarUsage)
        (r : NamingRule) (alt : String),
      (mkNamingIssue definitions usages r alt).kind = .InconsistentNaming
      ∧ (mkNamingIssue definitions usages r alt).severity = r.severity
      ∧ (mkNamingIssue definitions usages r alt).var_name = alt
      ∧ (mkNamingIssue definitions usages r alt).locations
          = namingLocations definitions usages alt
      ∧ (mkNamingIssue definitions usages r alt).suggestion
        = some (s!"Consider using \x27{r.preferred}\x27 instead of \x27{alt}\x27"
            ++ (match r.description with
                | some d => s!" ({d})"
                | none => "")))
    ∧ (∀ (definitions : List EnvVarDefinition) (usages : List EnvVarUsage)
        (alt : String),
      List.Pairwise (fun a b => locCmp a b = .lt)
        (namingLocations definitions usages alt)
      ∧ ∀ f ln,
        (∃ loc ∈ namingLocations definitions usages alt,
          loc.file = f ∧ loc.line = ln)
        ↔ ((∃ d ∈ definitions, d.name = alt ∧ d.source_file = f
              ∧ (some d.line : Option Nat) = ln)
           ∨ (∃ u ∈ usages, u.name = alt ∧ u.file_path = f
              ∧ (some u.line : Option Nat) = ln)))
    ∧ ((find_naming_issues []
          [{ name := "DB_URL", file_path := "app.js", line := 3, column := 7,
             language := .JavaScript, context := none }]
          [{ name := "database-url", description := none,
             alternatives := ["DB_URL", "DB_HOST"],
             preferred := "DATABASE_URL", severity := .Warning }]
          []).map Issue.var_name = ["DB_URL"]) := by
  refine ⟨?_, ?_, ?_, ?_, by decide⟩
  · intro definitions usages rules pats
    unfold find_naming_issues
    refine congrArg (rules.flatMap) ?_
    funext r
    exact filter_filterMap_if _ _ _ _
  · intro definitions usages pats r alt hnd
    rw [List.countP_map]
    have hcp : ((fun i => i.var_name == alt) ∘ mkNamingIssue definitions usages r)
        = (fun a => a == alt) := by
      funext a
      rfl
    rw [hcp, ← List.count_eq_countP]
    by_cases hmem : alt ∈ r.alternatives.filter (fun a =>
        presentIn definitions usages a && !(ignoredBy pats a))
    · rw [List.count_eq_one_of_mem (hnd.filter _) hmem]
      rcases List.mem_filter.mp hmem with ⟨h1, h2⟩
      simp only [Bool.and_eq_true, Bool.not_eq_true'] at h2
      rw [if_pos ⟨h1, h2.1, h2.2⟩]
    · rw [List.count_eq_zero_of_not_mem hmem]
      rw [if_neg]
      intro hc
      exact hmem (List.mem_filter.mpr ⟨hc.1, by simp [hc.2.1, hc.2.2]⟩)
  · intro definitions usages r alt
    exact ⟨rfl, rfl, rfl, rfl, rfl⟩
  · intro definitions usages alt
    exact namingLocations_spec definitions usages alt

/-- C4 witness: the per-rule counting clause of `naming_rule_spec` applied
to the `DB_URL`/`DB_HOST` rule and a single usage of `DB_URL`. -/
theorem naming_rule_spec_witness :
    ((["DB_URL", "DB_HOST"].filter (fun a =>
        presentIn []
          [{ name := "DB_URL", file_path := "app.js", line := 3, column := 7,
             language := .JavaScript, context := none }] a
          && !(ignoredBy [] a))).map
      (mkNamingIssue []
        [{ name := "DB_URL", file_path := "app.js", line := 3, column := 7,
           language := .JavaScript, context := none }]
        { name := "database-url", description := none,
          alternatives := ["DB_URL", "DB_HOST"],
          preferred := "DATABASE_URL", severity := .Warning })).countP
        (fun i => i.var_name == "DB_URL") = 1 := by
  have h := naming_rule_spec.2.1 []
    [{ name := "DB_URL", file_path := "app.js", line := 3, column := 7,
       language := .JavaScript, context := none }] []
    { name := "database-url", description := none,
      alternatives := ["DB_URL", "DB_HOST"],
      preferred := "DATABASE_URL", severity := .Warning } "DB_URL" (by decide)
  rw [h]
  rw [if_pos (by refine ⟨by decide, by decide, by decide⟩)]

theorem ordering_then_ne_gt {o1 o2 : Ordering} :
    o1.then o2 ≠ .gt ↔ o1 = .lt ∨ (o1 = .eq ∧ o2 ≠ .gt) := by
  cases o1 <;> simp [Ordering.then]

theorem sevRank_inj {a b : Severity} : sevRank a = sevRank b ↔ a = b := by
  cases a <;> cases b <;> simp [sevRank]

theorem lawful_cmpIssue : LawfulCmp cmpIssue :=
  lawful_then
    (lawful_flip (lawful_key lawful_natCmp (fun i : Issue => sevRank i.severity)))
    (lawful_key lawful_strCmp (fun i : Issue => i.var_name))

theorem cmpIssue_eq_name {a b : Issue} (h : cmpIssue a b = .eq) :
    a.var_name = b.var_name := by
  unfold cmpIssue at h
  rw [ordering_then_eq_eq] at h
  exact strCmp_eq_iff.mp h.2

theorem cmpIssue_ne_gt_iff {a b : Issue} :
    cmpIssue a b ≠ .gt
      ↔ sevRank b.severity < sevRank a.severity
        ∨ (b.severity = a.severity ∧ strCmp a.var_name b.var_name ≠ .gt) := by
  unfold cmpIssue
  rw [ordering_then_ne_gt, natCmp_lt_iff, natCmp_eq_iff, sevRank_inj]

theorem missing_pairwise_ne (definitions : List EnvVarDefinition)
    (usages : List EnvVarUsage) {σ : List String} (h : σ.Nodup) :
    List.Pairwise (fun a b => cmpIssue a b ≠ .eq)
      (find_missing_vars definitions usages σ) := by
  unfold find_missing_vars
  rw [List.pairwise_map]
  refine h.imp ?_
  intro a b hne he
  exact hne (cmpIssue_eq_name he)

theorem unused_pairwise_ne (definitions : List EnvVarDefinition)
    (usages : List EnvVarUsage) {σ : List String} (h : σ.Nodup) :
    List.Pairwise (fun a b => cmpIssue a b ≠ .eq)
      (find_unused_vars definitions usages σ) := by
  unfold find_unused_vars
  rw [List.pairwise_map]
  refine h.imp ?_
  intro a b hne he
  exact hne (cmpIssue_eq_name he)

/-- C2: the issue sequence returned by `analyze` is sorted by severity
descending with ties broken by ascending variable name, and is
deterministic: the output does not depend on the unspecified `HashSet`
iteration orders inside the missing/unused sub-analyses, so two runs on
the same inputs return identical sequences. -/
theorem analyze_order_spec (definitions : List EnvVarDefinition)
    (usages : List EnvVarUsage) (config : Config) (σm σu σm2 σu2 : List String)
    (hm : List.Perm σm (missingCanon definitions usages))
    (hu : List.Perm σu (unusedCanon definitions usages))
    (hm2 : List.Perm σm2 (missingCanon definitions usages))
    (hu2 : List.Perm σu2 (unusedCanon definitions usages)) :
    List.Pairwise (fun a b =>
        sevRank b.severity < sevRank a.severity
        ∨ (b.severity = a.severity ∧ strCmp a.var_name b.var_name ≠ .gt))
      (analyze definitions usages config σm σu)
    ∧ analyze definitions usages config σm σu
      = analyze definitions usages config σm2 σu2 := by
  constructor
  · refine List.Pairwise.imp ?_
      (insertionSort_pairwise lawful_cmpIssue
        (find_missing_vars definitions usages σm
          ++ find_unused_vars definitions usages σu
          ++ find_naming_issues definitions usages (get_all_rules config)
               config.naming.ignore_patterns))
    intro a b hab
    exact cmpIssue_ne_gt_iff.mp hab
  · have hnm : σm.Nodup := hm.nodup_iff.mpr (missingCanon_nodup _ _)
    have hnm2 : σm2.Nodup := hm2.nodup_iff.mpr (missingCanon_nodup _ _)
    have hnu : σu.Nodup := hu.nodup_iff.mpr (unusedCanon_nodup _ _)
    have hmm : List.Perm (find_missing_vars definitions usages σm)
        (find_missing_vars definitions usages σm2) := by
      unfold find_missing_vars
      exact (hm.trans hm2.symm).map _
    have huu : List.Perm (find_unused_vars definitions usages σu)
        (find_unused_vars definitions usages σu2) := by
      unfold find_unused_vars
      exact (hu.trans hu2.symm).map _
    show insertionSort cmpIssue _ = insertionSort cmpIssue _
    rw [List.append_assoc, List.append_assoc]
    calc
      insertionSort cmpIssue
          (find_missing_vars definitions usages σm
            ++ (find_unused_vars definitions usages σu
              ++ find_naming_issues definitions usages (get_all_rules config)
                   config.naming.ignore_patterns))
        = insertionSort cmpIssue
            (find_missing_vars definitions usages σm2
              ++ (find_unused_vars definitions usages σu
                ++ find_naming_issues definitions usages (get_all_rules config)
                     config.naming.ignore_patterns)) :=
          insertionSort_append_congr lawful_cmpIssue hmm
            (missing_pairwise_ne definitions usages hnm) _
      _ = (find_missing_vars definitions usages σm2).foldr
            (orderedInsert cmpIssue)
            (insertionSort cmpIssue
              (find_unused_vars definitions usages σu
                ++ find_naming_issues definitions usages (get_all_rules config)
                     config.naming.ignore_patterns)) :=
          insertionSort_append_foldr _ _ _
      _ = (find_missing_vars definitions usages σm2).foldr
            (orderedInsert cmpIssue)
            (insertionSort cmpIssue
              (find_unused_vars definitions usages σu2
                ++ find_naming_issues definitions usages (get_all_rules config)
                     config.naming.ignore_patterns)) := by
          rw [insertionSort_append_congr lawful_cmpIssue huu
            (unused_pairwise_ne definitions usages hnu) _]
      _ = insertionSort cmpIssue
            (find_missing_vars definitions usages σm2
              ++ (find_unused_vars definitions usages σu2
                ++ find_naming_issues definitions usages (get_all_rules config)
                     config.naming.ignore_patterns)) :=
          (insertionSort_append_foldr _ _ _).symm

/-- C2 witness: `analyze_order_spec` applied to one definition, one usage,
built-in rules disabled, and the canonical enumerations. -/
theorem analyze_order_spec_witness :
    List.Pairwise (fun a b =>
        sevRank b.severity < sevRank a.severity
        ∨ (b.severity = a.severity ∧ strCmp a.var_name b.var_name ≠ .gt))
      (analyze [{ name := "OLD", value := some "1", source_file := ".env", line := 3 }]
        [{ name := "NEW", file_path := "a.js", line := 1, column := 1,
           language := .JavaScript, context := none }]
        { naming := { builtin_rules := false, custom_rules := [],
                      ignore_patterns := [] } } ["NEW"] ["OLD"])
    ∧ analyze [{ name := "OLD", value := some "1", source_file := ".env", line := 3 }]
        [{ name := "NEW", file_path := "a.js", line := 1, column := 1,
           language := .JavaScript, context := none }]
        { naming := { builtin_rules := false, custom_rules := [],
                      ignore_patterns := [] } } ["NEW"] ["OLD"]
      = analyze [{ name := "OLD", value := some "1", source_file := ".env", line := 3 }]
        [{ name := "NEW", file_path := "a.js", line := 1, column := 1,
           language := .JavaScript, context := none }]
        { naming := { builtin_rules := false, custom_rules := [],
                      ignore_patterns := [] } } ["NEW"] ["OLD"] :=
  analyze_order_spec
    [{ name := "OLD", value := some "1", source_file := ".env", line := 3 }]
    [{ name := "NEW", file_path := "a.js", line := 1, column := 1,
       language := .JavaScript, context := none }]
    { naming := { builtin_rules := false, custom_rules := [],
                  ignore_patterns := [] } }
    ["NEW"] ["OLD"] ["NEW"] ["OLD"]
    (by decide) (by decide) (by decide) (by decide)

theorem dropLit_eq {lit : List Char} :
    ∀ {cs r : List Char}, dropLit lit cs = some r → cs = lit ++ r := by
  induction lit with
  | nil =>
    intro cs r h
    cases h
    rfl
  | cons l ls ih =>
    intro cs r h
    cases cs with
    | nil => cases h
    | cons c rest =>
      unfold dropLit at h
      split at h <;> rename_i hc
      · rw [List.cons_append, hc, ih h]
      · cases h


theorem expectQuote_eq {cs r : List Char} (h : expectQuote cs = some r) :
    ∃ q, cs = q :: r := by
  cases cs with
  | nil => cases h
  | cons c t =>
    have h2 : (if isQuoteChar c then some t else none) = some r := h
    split at h2
    · exact ⟨c, by rw [Option.some.inj h2]⟩
    · cases h2

theorem expectChar_eq {ch : Char} {cs r : List Char}
    (h : expectChar ch cs = some r) : cs = ch :: r := by
  cases cs with
  | nil => cases h
  | cons c t =>
    have h2 : (if c = ch then some t else none) = some r := h
    split at h2 <;> rename_i hc
    · rw [hc, Option.some.inj h2]
    · cases h2

theorem take_takeWhile_length {α : Type} (p : α → Bool) (l : List α) :
    l.take ((l.takeWhile p).length) = l.takeWhile p := by
  induction l with
  | nil => rfl
  | cons a t ih =>
    by_cases hp : p a
    · simp [List.takeWhile_cons, hp, ih]
    · simp [List.takeWhile_cons, hp]

theorem dropWhile_as_drop {α : Type} (p : α → Bool) (l : List α) :
    l.drop ((l.takeWhile p).length) = l.dropWhile p := by
  induction l with
  | nil => rfl
  | cons a t ih =>
    by_cases hp : p a
    · simp [List.takeWhile_cons, List.dropWhile_cons, hp, ih]
    · simp [List.takeWhile_cons, List.dropWhile_cons, hp]

theorem takeName_sound {cs nm rest : List Char}
    (h : takeName cs = some (nm, rest)) :
    canonicalShape nm = true ∧ cs.take nm.length = nm := by
  unfold takeName at h
  split at h <;> rename_i hshape
  · have h1 := Option.some.inj h
    have hnm : cs.takeWhile isNameChar = nm := congrArg Prod.fst h1
    subst hnm
    exact ⟨hshape, take_takeWhile_length isNameChar cs⟩
  · cases h

theorem matchStyle_sound {sty : MStyle} {r : List Char} {off : Nat}
    {nm : List Char} {len : Nat}
    (h : matchStyle sty r = some (off, nm, len)) :
    canonicalShape nm = true ∧ (r.drop off).take nm.length = nm := by
  cases sty with
  | bracketArg =>
    have h2 : ((expectQuote r).bind fun r1 =>
        (takeName r1).bind fun p =>
          (expectQuote p.2).bind fun r3 =>
            (expectChar ']' r3).bind fun _ =>
              some (1, p.1, p.1.length + 3)) = some (off, nm, len) := h
    rcases Option.bind_eq_some.mp h2 with ⟨r1, h1, h3⟩
    rcases Option.bind_eq_some.mp h3 with ⟨p, htk, h4⟩
    rcases Option.bind_eq_some.mp h4 with ⟨r3, _, h5⟩
    rcases Option.bind_eq_some.mp h5 with ⟨r4, _, h6⟩
    have hoff : (1 : Nat) = off := congrArg (fun q => q.1) (Option.some.inj h6)
    have hnm : p.1 = nm := congrArg (fun q => q.2.1) (Option.some.inj h6)
    subst hoff
    subst hnm
    rcases expectQuote_eq h1 with ⟨q, rfl⟩
    have hs := takeName_sound (by rw [htk] : takeName r1 = some (p.1, p.2))
    exact ⟨hs.1, by simpa using hs.2⟩
  | callArg =>
    have h2 : ((expectChar '(' (r.dropWhile isWsChar)).bind fun r2 =>
        (expectQuote (r2.dropWhile isWsChar)).bind fun r3 =>
          (takeName r3).bind fun p =>
            (expectQuote p.2).bind fun _ =>
              some ((r.takeWhile isWsChar).length + 1
                      + (r2.takeWhile isWsChar).length + 1,
                    p.1,
                    (r.takeWhile isWsChar).length + 1
                      + (r2.takeWhile isWsChar).length + 1 + p.1.length + 1))
          = some (off, nm, len) := h
    rcases Option.bind_eq_some.mp h2 with ⟨r2, h1, h3⟩
    rcases Option.bind_eq_some.mp h3 with ⟨r3, hq, h4⟩
    rcases Option.bind_eq_some.mp h4 with ⟨p, htk, h5⟩
    rcases Option.bind_eq_some.mp h5 with ⟨r5, _, h6⟩
    have hoff : (r.takeWhile isWsChar).length + 1
        + (r2.takeWhile isWsChar).length + 1 = off :=
      congrArg (fun q => q.1) (Option.some.inj h6)
    have hnm : p.1 = nm := congrArg (fun q => q.2.1) (Option.some.inj h6)
    subst hoff
    subst hnm
    have hs := takeName_sound (by rw [htk] : takeName r3 = some (p.1, p.2))
    refine ⟨hs.1, ?_⟩
    have e3 : r.drop ((r.takeWhile isWsChar).length + 1
        + (r2.takeWhile isWsChar).length + 1) = r3 := by
      rw [show (r.takeWhile isWsChar).length + 1
          + (r2.takeWhile isWsChar).length + 1
          = (r.takeWhile isWsChar).length
            + (1 + ((r2.takeWhile isWsChar).length + 1)) by omega]
      rw [← List.drop_drop, dropWhile_as_drop, expectChar_eq h1]
      rw [← List.drop_drop, List.drop_one, List.tail_cons]
      rw [← List.drop_drop, dropWhile_as_drop]
      rcases expectQuote_eq hq with ⟨q, hq2⟩
      rw [hq2, List.drop_one, List.tail_cons]
    rw [e3]
    exact hs.2
  | dotArg =>
    have h2 : ((takeName r).bind fun p => some (0, p.1, p.1.length))
        = some (off, nm, len) := h
    rcases Option.bind_eq_some.mp h2 with ⟨p, htk, h3⟩
    have hoff : (0 : Nat) = off := congrArg (fun q => q.1) (Option.some.inj h3)
    have hnm : p.1 = nm := congrArg (fun q => q.2.1) (Option.some.inj h3)
    subst hoff
    subst hnm
    have hs := takeName_sound (by rw [htk] : takeName r = some (p.1, p.2))
    exact ⟨hs.1, by simpa using hs.2⟩

theorem tryPat_sound {bnd : Bool} {head : List Char} {sty : MStyle}
    {prv : Option Char} {cs : List Char} {off : Nat} {nm : List Char}
    {len : Nat} (h : tryPat bnd head sty prv cs = some (off, nm, len)) :
    canonicalShape nm = true ∧ (cs.drop off).take nm.length = nm := by
  unfold tryPat at h
  split at h
  · cases h
  · rcases Option.bind_eq_some.mp h with ⟨r1, hd, h2⟩
    rcases Option.bind_eq_some.mp h2 with ⟨m, hm, h3⟩
    have hoff : head.length + m.1 = off := congrArg (fun q => q.1) (Option.some.inj h3)
    have hnm : m.2.1 = nm := congrArg (fun q => q.2.1) (Option.some.inj h3)
    subst hoff
    subst hnm
    have hms := matchStyle_sound
      (show matchStyle sty r1 = some (m.1, m.2.1, m.2.2) from by rw [hm])
    refine ⟨hms.1, ?_⟩
    rw [dropLit_eq hd, ← List.drop_drop, List.drop_left' rfl]
    exact hms.2

theorem scanLineAux_sound
    {pm : Option Char → List Char → Option (Nat × List Char × Nat)}
    (hpm : ∀ (prv : Option Char) (cs : List Char) (off : Nat) (nm : List Char)
      (len : Nat), pm prv cs = some (off, nm, len) →
      canonicalShape nm = true ∧ (cs.drop off).take nm.length = nm) :
    ∀ (cs : List Char) (prv : Option Char) (pos skip p : Nat) (nm : List Char),
      (p, nm) ∈ scanLineAux pm cs prv pos skip →
      canonicalShape nm = true ∧ pos ≤ p
        ∧ (cs.drop (p - pos)).take nm.length = nm := by
  intro cs
  induction cs with
  | nil =>
    intro prv pos skip p nm h
    have h2 : (p, nm) ∈ ([] : List (Nat × List Char)) := h
    cases h2
  | cons c rest ih =>
    intro prv pos skip p nm h
    cases skip with
    | succ k =>
      have h2 : (p, nm) ∈ scanLineAux pm rest (some c) (pos + 1) k := h
      obtain ⟨h1, hge, h3⟩ := ih (some c) (pos + 1) k p nm h2
      refine ⟨h1, by omega, ?_⟩
      rw [show p - pos = (p - (pos + 1)) + 1 by omega]
      simpa using h3
    | zero =>
      have h2 : (p, nm) ∈ (match pm prv (c :: rest) with
        | some m =>
          (pos + m.1, m.2.1) :: scanLineAux pm rest (some c) (pos + 1) (m.2.2 - 1)
        | none => scanLineAux pm rest (some c) (pos + 1) 0) := h
      rcases hm : pm prv (c :: rest) with _ | m
      · rw [hm] at h2
        have h3 : (p, nm) ∈ scanLineAux pm rest (some c) (pos + 1) 0 := h2
        obtain ⟨h1, hge, h4⟩ := ih (some c) (pos + 1) 0 p nm h3
        refine ⟨h1, by omega, ?_⟩
        rw [show p - pos = (p - (pos + 1)) + 1 by omega]
        simpa using h4
      · rw [hm] at h2
        have h3 : (p, nm) ∈ (pos + m.1, m.2.1)
            :: scanLineAux pm rest (some c) (pos + 1) (m.2.2 - 1) := h2
        rcases List.mem_cons.mp h3 with heq | hmem
        · have hp : p = pos + m.1 := congrArg Prod.fst heq
          have hn : nm = m.2.1 := congrArg Prod.snd heq
          subst hp
          subst hn
          have hs := hpm prv (c :: rest) m.1 m.2.1 m.2.2 (by rw [hm])
          refine ⟨hs.1, by omega, ?_⟩
          rw [show pos + m.1 - pos = m.1 by omega]
          exact hs.2
        · obtain ⟨h1, hge, h4⟩ := ih (some c) (pos + 1) (m.2.2 - 1) p nm hmem
          refine ⟨h1, by omega, ?_⟩
          rw [show p - pos = (p - (pos + 1)) + 1 by omega]
          simpa using h4

/-- C6 (amended): every usage emitted by the Ruby scanner has a name of
the canonical shape, a 1-based line number locating the physical line it
occurs on, and a 1-based column at which the name literally occurs within
that line; and scanning the single line `x = ENV['FOO_BAR']` yields
exactly one usage named `FOO_BAR` at column 10, the column of the letter
`F`.  The original claim's universal over every dialect scanner fails:
the JavaScript destructuring pattern assigns every destructured name the
capture-start column (see the counterexample). -/
theorem ruby_usage_shape_spec :
    (∀ (content path : String) (u : EnvVarUsage), u ∈ rubyScan content path →
      canonicalShape u.name.data = true
      ∧ 1 ≤ u.line ∧ 1 ≤ u.column
      ∧ ∃ ln, (linesData content)[u.line - 1]? = some ln
          ∧ (ln.drop (u.column - 1)).take u.name.data.length = u.name.data)
    ∧ rubyScan "x = ENV[\x27FOO_BAR\x27]" "config.rb"
        = [{ name := "FOO_BAR", file_path := "config.rb", line := 1,
             column := 10, language := .Ruby,
             context := some "x = ENV[\x27FOO_BAR\x27]" }] := by
  constructor
  · intro content path u hu
    unfold rubyScan at hu
    rcases List.mem_flatMap.mp hu with ⟨pr, hpr, hinner⟩
    rcases List.mem_map.mp hinner with ⟨m, hmem, rfl⟩
    rcases List.mem_flatMap.mp hmem with ⟨pm, hpmMem, hscan⟩
    have hpm : ∀ (prv : Option Char) (cs : List Char) (off : Nat)
        (nm : List Char) (len : Nat),
        pm prv cs = some (off, nm, len) →
        canonicalShape nm = true ∧ (cs.drop off).take nm.length = nm := by
      unfold rubyPatterns at hpmMem
      rcases List.mem_cons.mp hpmMem with rfl | h2
      · intro prv cs off nm len h
        exact tryPat_sound h
      · rcases List.mem_cons.mp h2 with rfl | h3
        · intro prv cs off nm len h
          exact tryPat_sound h
        · cases h3
    have hs := scanLineAux_sound hpm pr.2 none 0 0 m.1 m.2 hscan
    refine ⟨hs.1, ?_, ?_, ?_⟩
    · show 1 ≤ pr.1 + 1
      omega
    · show 1 ≤ m.1 + 1
      omega
    · refine ⟨pr.2, ?_, ?_⟩
      · show (linesData content)[pr.1 + 1 - 1]? = some pr.2
        have hpr2 : (pr.1, pr.2) ∈ (linesData content).enum := hpr
        simpa using List.mk_mem_enum_iff_getElem?.mp hpr2
      · show (pr.2.drop (m.1 + 1 - 1)).take
            ((String.mk m.2).data).length = (String.mk m.2).data
        simpa using hs.2.2
  · decide

/-- C6 witness: the general clause of `ruby_usage_shape_spec` applied to
the usage extracted from `x = ENV['FOO_BAR']`. -/
theorem ruby_usage_shape_spec_witness :
    canonicalShape (("FOO_BAR" : String).data) = true
    ∧ (1 : Nat) ≤ 1 ∧ (1 : Nat) ≤ 10
    ∧ ∃ ln, (linesData "x = ENV[\x27FOO_BAR\x27]")[(1 : Nat) - 1]? = some ln
        ∧ (ln.drop (10 - 1)).take ("FOO_BAR" : String).data.length
          = ("FOO_BAR" : String).data := by
  have h := ruby_usage_shape_spec.1 "x = ENV[\x27FOO_BAR\x27]" "config.rb"
    { name := "FOO_BAR", file_path := "config.rb", line := 1, column := 10,
      language := .Ruby, context := some "x = ENV[\x27FOO_BAR\x27]" }
    (by rw [ruby_usage_shape_spec.2]; simp)
  exact h

theorem emitCands_spec (path : String) (lineNum : Nat) (ln : List Char) :
    ∀ (cands : List (Nat × List Char)) (seen : List (Nat × Nat × List Char)),
      (∀ u ∈ (emitCands path lineNum ln cands seen).1, usageKey u ∉ seen)
      ∧ (∀ u ∈ (emitCands path lineNum ln cands seen).1,
          usageKey u ∈ (emitCands path lineNum ln cands seen).2)
      ∧ (∀ k ∈ seen, k ∈ (emitCands path lineNum ln cands seen).2)
      ∧ List.Pairwise (fun u v => usageKey u ≠ usageKey v)
          (emitCands path lineNum ln cands seen).1 := by
  intro cands
  induction cands with
  | nil =>
    intro seen
    exact ⟨by simp [emitCands], by simp [emitCands], by simp [emitCands],
      by simp [emitCands]⟩
  | cons m t ih =>
    intro seen
    by_cases hk : ((lineNum, m.1, m.2) : Nat × Nat × List Char) ∈ seen
    · have he : emitCands path lineNum ln (m :: t) seen
          = emitCands path lineNum ln t seen := by
        rw [show emitCands path lineNum ln (m :: t) seen
            = if ((lineNum, m.1, m.2) : Nat × Nat × List Char) ∈ seen then
                emitCands path lineNum ln t seen
              else
                ({ name := String.mk m.2, file_path := path, line := lineNum,
                   column := m.1 + 1, language := .Python,
                   context := some (String.mk (trimChars ln)) }
                    :: (emitCands path lineNum ln t
                        ((lineNum, m.1, m.2) :: seen)).1,
                  (emitCands path lineNum ln t ((lineNum, m.1, m.2) :: seen)).2)
            from rfl, if_pos hk]
      rw [he]
      exact ih seen
    · have he : emitCands path lineNum ln (m :: t) seen
          = ({ name := String.mk m.2, file_path := path, line := lineNum,
               column := m.1 + 1, language := .Python,
               context := some (String.mk (trimChars ln)) }
                  :: (emitCands path lineNum ln t ((lineNum, m.1, m.2) :: seen)).1,
              (emitCands path lineNum ln t ((lineNum, m.1, m.2) :: seen)).2) := by
        rw [show emitCands path lineNum ln (m :: t) seen
            = if ((lineNum, m.1, m.2) : Nat × Nat × List Char) ∈ seen then
                emitCands path lineNum ln t seen
              else
                ({ name := String.mk m.2, file_path := path, line := lineNum,
                   column := m.1 + 1, language := .Python,
                   context := some (String.mk (trimChars ln)) }
                    :: (emitCands path lineNum ln t
                        ((lineNum, m.1, m.2) :: seen)).1,
                  (emitCands path lineNum ln t ((lineNum, m.1, m.2) :: seen)).2)
            from rfl, if_neg hk]
      obtain ⟨ih1, ih2, ih3, ih4⟩ := ih (((lineNum, m.1, m.2)) :: seen)
      rw [he]
      refine ⟨?_, ?_, ?_, ?_⟩
      · intro u hu
        rcases List.mem_cons.mp hu with rfl | hu2
        · exact hk
        · intro hc
          exact ih1 u hu2 (by simp [hc])
      · intro u hu
        rcases List.mem_cons.mp hu with rfl | hu2
        · exact ih3 _ (List.mem_cons_self _ _)
        · exact ih2 u hu2
      · intro k hkm
        exact ih3 k (by simp [hkm])
      · refine List.pairwise_cons.mpr ⟨?_, ih4⟩
        intro v hv
        intro hc
        refine ih1 v hv ?_
        rw [← hc]
        exact List.mem_cons_self _ _

theorem pyScanAux_spec (path : String) :
    ∀ (rows : List (Nat × List Char)) (seen : List (Nat × Nat × List Char)),
      List.Pairwise (fun u v => usageKey u ≠ usageKey v) (pyScanAux path rows seen)
      ∧ (∀ u ∈ pyScanAux path rows seen, usageKey u ∉ seen) := by
  intro rows
  induction rows with
  | nil =>
    intro seen
    exact ⟨by simp [pyScanAux], by simp [pyScanAux]⟩
  | cons p rest ih =>
    intro seen
    obtain ⟨e1, e2, e3, e4⟩ := emitCands_spec path (p.1 + 1) p.2 (pyLineCands p.2) seen
    obtain ⟨r1, r2⟩ :=
      ih (emitCands path (p.1 + 1) p.2 (pyLineCands p.2) seen).2
    have he : pyScanAux path (p :: rest) seen
        = (emitCands path (p.1 + 1) p.2 (pyLineCands p.2) seen).1
          ++ pyScanAux path rest
              (emitCands path (p.1 + 1) p.2 (pyLineCands p.2) seen).2 := rfl
    rw [he]
    constructor
    · rw [List.pairwise_append]
      refine ⟨e4, r1, ?_⟩
      intro u hu v hv
      intro hc
      exact r2 v hv (hc ▸ e2 u hu)
    · intro u hu
      rcases List.mem_append.mp hu with hu2 | hu2
      · exact e1 u hu2
      · intro hc
        exact r2 u hu2 (e3 _ hc)

/-- C7 (amended): a scanner that tracks already-reported
`(line, column, name)` triples — the Python scanner — never reports the
same triple twice in a single call; the JavaScript scanner has no such
cache and can emit duplicate triples when a destructuring list repeats a
name (see the counterexample). -/
theorem python_no_duplicate_triples (content path : String) :
    List.Pairwise (fun u v : EnvVarUsage =>
        ¬(u.line = v.line ∧ u.column = v.column ∧ u.name = v.name))
      (pyScan content path) := by
  have h := (pyScanAux_spec path (linesData content).enum []).1
  refine h.imp ?_
  intro u v hne hc
  refine hne ?_
  unfold usageKey
  rw [hc.1, hc.2.1, hc.2.2]

/-- C7 counterexample: the JavaScript scanner, which lacks the
deduplication cache, reports two usages with the identical
`(line, column, name)` triple on
`const {FOO,FOO} = process.env`, refuting the claim for every dialect
scanner. -/
theorem js_duplicate_triple_counterexample :
    ¬ List.Pairwise (fun u v : EnvVarUsage =>
        ¬(u.line = v.line ∧ u.column = v.column ∧ u.name = v.name))
      (jsScan "const \x7bFOO,FOO\x7d = process.env" "app.js")
    ∧ (jsScan "const \x7bFOO,FOO\x7d = process.env" "app.js").map
        (fun u => (u.line, u.column, u.name))
      = [(1, 8, "FOO"), (1, 8, "FOO")] := by
  constructor
  · decide
  · decide

/-- C6 counterexample: the JavaScript scanner gives every destructured
name the column of the capture start, so on
`const {PORT, HOST} = process.env` the usage named `HOST` is reported at
column 8 — where the line reads `PORT` — while `HOST` actually occurs at
column 14; hence not every usage emitted by a dialect scanner carries the
1-based offset of the matched name within its line. -/
theorem js_destructure_column_counterexample :
    (jsScan "const \x7bPORT, HOST\x7d = process.env" "app.js").map
        (fun u => (u.name, u.line, u.column))
      = [("PORT", 1, 8), ("HOST", 1, 8)]
    ∧ ((("const \x7bPORT, HOST\x7d = process.env" : String).data.drop
          (8 - 1)).take ("HOST" : String).data.length
        ≠ ("HOST" : String).data)
    ∧ ((("const \x7bPORT, HOST\x7d = process.env" : String).data.drop
          (14 - 1)).take ("HOST" : String).data.length
        = ("HOST" : String).data) := by
  refine ⟨by decide, by decide, by decide⟩

end EnvAudit
